import Mathlib

/-!
Verification of the torch2pprof conversion engine.

The definitions below are a shallow embedding of the Go sources:
  * `cmd/torch2pprof/main.go` (packages `main` and `converter`):
    trace events, per-thread stack reconstruction (`ProcessThreadEvents`),
    and the conversion pipeline (`ConvertTrace`);
  * `internal/profile/profile.go`: the pprof data model, the deduplicating
    `Builder` (`AddString`, `GetOrCreateFunction`, `GetOrCreateLocation`),
    and the hand-written protobuf encoder.

Modelling conventions:
  * Go `float64` microsecond timestamps and durations are modelled as exact
    rationals (the algorithm only adds, compares, and scales them);
  * Go `int64` values are modelled as `Int` (no claim in scope depends on
    64-bit wraparound of durations or string handles); the string-hash for
    thread ids, which does wrap in Go, wraps explicitly;
  * Go maps are modelled as association lists with first-match lookup;
    insertion conses the new binding on the front, and the code only ever
    inserts a key after a failed lookup, so shadowing never occurs;
  * the mutex-protected builder operations are modelled as atomic state
    transitions; an arbitrary interleaving of concurrent callers is an
    arbitrary sequence of such transitions.
-/

/-- thread identifier field: in the source this is a dynamically typed JSON
value (`interface{}`), which in practice is a float64 number, a string, or
something else. -/
inductive TidVal where
  | num (q : ℚ)
  | str (s : String)
  | other
deriving DecidableEq, Repr

/-- one trace event (source: `converter.TraceEvent`); `ts` and `dur` are
microseconds. -/
structure TraceEvent where
  ph : String
  cat : String
  name : String
  tid : TidVal
  ts : ℚ
  dur : ℚ
deriving DecidableEq, Repr

/-- truncation toward zero, the semantics of Go `int64(f)` for a float64
whose value fits in range. -/
def ratTrunc (q : ℚ) : Int :=
  q.num.tdiv (q.den : Int)

/-- 64-bit two's-complement wraparound of an unbounded integer. -/
def wrap64 (z : Int) : Int :=
  (z + 2 ^ 63) % 2 ^ 64 - 2 ^ 63

/-- source: `converter.getTid`.  Numbers are truncated to int64, strings are
hashed with the base-31 rolling hash over their characters (with int64
wraparound), anything else maps to 0. -/
def getTid : TidVal → Int
  | .num q => ratTrunc q
  | .str s => s.data.foldl (fun h c => wrap64 (h * 31 + (c.toNat : Int))) 0
  | .other => 0

/-- end time of an event, source: `eventWithEnd.End = e.Ts + e.Dur`. -/
def endT (e : TraceEvent) : ℚ := e.ts + e.dur

/-- duration in nanoseconds, source: `int64(event.Dur * 1000)`. -/
def durNs (e : TraceEvent) : Int := ratTrunc (e.dur * 1000)

/-- source: `converter.eventWithEnd`, a trace event together with its cached
end time (`End = e.Ts + e.Dur`). -/
structure EventWithEnd where
  ev : TraceEvent
  endv : ℚ
deriving DecidableEq, Repr

/-- source: `converter.stackSample`, one emitted call-stack sample. -/
structure StackSample where
  stack : List String
  names : List String
  cats : List String
  timeNs : Int
deriving DecidableEq, Repr

/-- the composite map key `name + "\x00" + category` used both for stack
frames and for the builder's function/location indices. -/
def frameKey (name cat : String) : String := name ++ "\x00" ++ cat

/-- the two pruning steps of `ProcessThreadEvents` applied to the active
stack before a new event `e` is pushed: first pop from the top (list end)
every frame that ended before `e` starts, then retain only the frames whose
end is at or after the end of `e` (full containment). -/
def prune (stack : List EventWithEnd) (e : EventWithEnd) : List EventWithEnd :=
  ((stack.reverse.dropWhile fun s => decide (s.endv < e.ev.ts)).reverse).filter
    fun s => decide (e.endv ≤ s.endv)

/-- the sample emitted for event `e` given the pruned active stack:
stack-as-names, stack-as-categories, composite frame keys, and the duration
in nanoseconds. -/
def mkSample (stack : List EventWithEnd) (e : EventWithEnd) : StackSample :=
  { names := stack.map (fun s => s.ev.name) ++ [e.ev.name]
    cats := stack.map (fun s => s.ev.cat) ++ [e.ev.cat]
    stack := stack.map (fun s => frameKey s.ev.name s.ev.cat) ++ [frameKey e.ev.name e.ev.cat]
    timeNs := durNs e.ev }

/-- the event loop of `ProcessThreadEvents`: prune the stack, emit the
sample for the current event, push the event, continue. -/
def runThread (stack : List EventWithEnd) : List EventWithEnd → List StackSample
  | [] => []
  | e :: rest => mkSample (prune stack e) e :: runThread (prune stack e ++ [e]) rest

/-- source: `ProcessThreadEvents`, started with an empty active stack.  The
`pb` parameter of the Go function is unused there, and the results channel
is modelled by the returned list (one sample per event, in order). -/
def processThread (events : List EventWithEnd) : List StackSample :=
  runThread [] events

/-- the filtering predicate of `ConvertTrace`: only phase `"X"` events with
strictly positive duration are converted. -/
def isComplete (e : TraceEvent) : Bool := e.ph == "X" && decide (0 < e.dur)

/-- events surviving the `ConvertTrace` filter, in input order. -/
def qualifying (l : List TraceEvent) : List TraceEvent := l.filter isComplete

/-- the distinct normalized thread ids of the qualifying events (the key set
of the Go `threadEvents` map; its iteration order is arbitrary in Go, and
this canonical order stands in for it). -/
def tidsOf (l : List TraceEvent) : List Int :=
  ((qualifying l).map fun e => getTid e.tid).dedup

/-- attach the cached end time, source: `eventWithEnd{TraceEvent: e, End: e.Ts + e.Dur}`. -/
def withEnd (e : TraceEvent) : EventWithEnd := ⟨e, e.ts + e.dur⟩

/-- the per-thread buckets of the Go `threadEvents` map: each bucket holds
that thread's qualifying events in input order, with cached end times. -/
def threadGroups (l : List TraceEvent) : List (List EventWithEnd) :=
  (tidsOf l).map fun t =>
    ((qualifying l).filter fun e => getTid e.tid == t).map withEnd

/-- the per-thread sort by start time.  The source calls `sort.Slice` with
`events[i].Ts < events[j].Ts`, whose contract only promises a permutation
sorted by that comparison; this canonical model is the stable insertion
sort (which is also exactly what Go's `sort.Slice` performs on the short
slices appearing in the concrete examples below).  Claims sensitive to the
order of equal start times are treated against `sortSpec`, the contract of
`sort.Slice`, rather than this canonical choice. -/
def tsLe (a b : EventWithEnd) : Prop := a.ev.ts ≤ b.ev.ts

instance : DecidableRel tsLe := fun a b => inferInstanceAs (Decidable (a.ev.ts ≤ b.ev.ts))

instance : IsTotal EventWithEnd tsLe := ⟨fun a b => le_total a.ev.ts b.ev.ts⟩

instance : IsTrans EventWithEnd tsLe := ⟨fun _ _ _ h h' => le_trans h h'⟩

def sortTs : List EventWithEnd → List EventWithEnd :=
  List.insertionSort tsLe

/-- postcondition of `sort.Slice(events, func(i, j) { events[i].Ts < events[j].Ts })`:
some permutation of the input that is sorted by start time, ties in
unspecified order. -/
def sortSpec (l l' : List EventWithEnd) : Prop :=
  List.Perm l' l ∧ l'.Pairwise tsLe

/-! ## The profile data model and builder (source: `internal/profile/profile.go`) -/

/-- source: `profile.ValueType`. -/
structure PValueType where
  type : Int
  unit : Int
deriving DecidableEq, Repr

/-- source: `profile.Sample`. -/
structure PSample where
  locationId : List Nat
  value : List Int
deriving DecidableEq, Repr

/-- source: `profile.Line`. -/
structure PLine where
  functionId : Nat
  line : Int
deriving DecidableEq, Repr

/-- source: `profile.Location`. -/
structure PLocation where
  id : Nat
  line : List PLine
deriving DecidableEq, Repr

/-- source: `profile.Function`. -/
structure PFunction where
  id : Nat
  name : Int
  systemName : Int
  filename : Int
deriving DecidableEq, Repr

/-- source: `profile.Profile`. -/
structure PProfile where
  sampleType : List PValueType := []
  sample : List PSample := []
  location : List PLocation := []
  function : List PFunction := []
  stringTable : List String := []
  timeNanos : Int := 0
  durationNanos : Int := 0
  periodType : Option PValueType := none
  period : Int := 0
deriving DecidableEq, Repr

/-- source: `profile.Builder`; the Go maps are association lists with
first-match lookup, and the mutex is modelled by atomicity of each
operation. -/
structure PBuilder where
  profile : PProfile
  stringIndex : List (String × Int)
  functionIndex : List (String × Nat)
  locationIndex : List (String × Nat)
deriving DecidableEq, Repr

/-- first-match lookup in an association list (Go map read). -/
def alookup {α : Type} : List (String × α) → String → Option α
  | [], _ => none
  | (k, v) :: rest, s => if k = s then some v else alookup rest s

/-- source: `profile.NewBuilder`: string table seeded with `""` at index 0. -/
def newBuilder : PBuilder :=
  { profile := { stringTable := [""] }
    stringIndex := [("", 0)]
    functionIndex := []
    locationIndex := [] }

/-- source: `Builder.AddString` (and the lock-free `addStringLocked`, whose
pure effect is identical): return the index of `s` if already interned,
otherwise append it. -/
def addString (b : PBuilder) (s : String) : PBuilder × Int :=
  match alookup b.stringIndex s with
  | some idx => (b, idx)
  | none =>
      let idx : Int := b.profile.stringTable.length
      ({ b with
          profile := { b.profile with stringTable := b.profile.stringTable ++ [s] }
          stringIndex := (s, idx) :: b.stringIndex }, idx)

/-- the function-creation block shared verbatim by `GetOrCreateFunction` and
`GetOrCreateLocation`: assign id `len+1`, intern name (twice: display and
system name) and filename, append, index. -/
def createFunction (b : PBuilder) (name filename key : String) : PBuilder × Nat :=
  let id : Nat := b.profile.function.length + 1
  let r1 := addString b name
  let r2 := addString r1.1 name
  let r3 := addString r2.1 filename
  let fn : PFunction := ⟨id, r1.2, r2.2, r3.2⟩
  ({ r3.1 with
      profile := { r3.1.profile with function := r3.1.profile.function ++ [fn] }
      functionIndex := (key, id) :: r3.1.functionIndex }, id)

/-- source: `Builder.GetOrCreateFunction`. -/
def getOrCreateFunction (b : PBuilder) (name filename : String) : PBuilder × Nat :=
  let key := name ++ "\x00" ++ filename
  match alookup b.functionIndex key with
  | some id => (b, id)
  | none => createFunction b name filename key

/-- source: `Builder.GetOrCreateLocation`.  On a miss the implied function is
looked up by the same key (a missing Go map entry reads as 0, and function
ids start at 1) and created if absent, then the location is appended with a
single `Line` referencing it. -/
def getOrCreateLocation (b : PBuilder) (name filename : String) : PBuilder × Nat :=
  let key := name ++ "\x00" ++ filename
  match alookup b.locationIndex key with
  | some id => (b, id)
  | none =>
      let funcId0 : Nat := (alookup b.functionIndex key).getD 0
      let fr : PBuilder × Nat :=
        if funcId0 = 0 then createFunction b name filename key else (b, funcId0)
      let id : Nat := fr.1.profile.location.length + 1
      let loc : PLocation := ⟨id, [⟨fr.2, 0⟩]⟩
      ({ fr.1 with
          profile := { fr.1.profile with location := fr.1.profile.location ++ [loc] }
          locationIndex := (key, id) :: fr.1.locationIndex }, id)

/-- source: `Builder.SetSampleTypes`. -/
def setSampleTypes (b : PBuilder) (ts : List (String × String)) : PBuilder :=
  ts.foldl
    (fun b t =>
      let r1 := addString b t.1
      let r2 := addString r1.1 t.2
      { r2.1 with
          profile := { r2.1.profile with
            sampleType := r2.1.profile.sampleType ++ [⟨r1.2, r2.2⟩] } })
    b

/-- source: `Builder.SetPeriodType`. -/
def setPeriodType (b : PBuilder) (tname unit : String) : PBuilder :=
  let r1 := addString b tname
  let r2 := addString r1.1 unit
  { r2.1 with profile := { r2.1.profile with periodType := some ⟨r1.2, r2.2⟩ } }

/-! ## Aggregation and the whole conversion (source: `converter.ConvertTrace`) -/

/-- source: `converter.sampleData`, the aggregated per-stack record. -/
structure SampleData where
  locationIds : List Nat
  count : Int
  timeNs : Int
deriving DecidableEq, Repr

/-- the aggregation key of a sample: every frame key followed by `";"`,
concatenated (`key += s + ";"`). -/
def sampleKey (s : StackSample) : String :=
  s.stack.foldl (fun k fr => k ++ fr ++ ";") ""

/-- increment the count and add `t` nanoseconds at the first entry with the
given key (the repeat-occurrence branch of the aggregation loop). -/
def updateAdd : List (String × SampleData) → String → Int → List (String × SampleData)
  | [], _, _ => []
  | (k, d) :: rest, key, t =>
      if k = key then (k, { d with count := d.count + 1, timeNs := d.timeNs + t }) :: rest
      else (k, d) :: updateAdd rest key t

/-- the location-resolution loop of the first-occurrence branch: resolve
each frame in ancestor-first order and store the ids reversed, leaf first
(`locationIds[len(sample.names)-1-i] = locId`). -/
def resolveLocsRev (b : PBuilder) (names cats : List String) : PBuilder × List Nat :=
  (names.zip cats).foldl
    (fun acc p =>
      let r := getOrCreateLocation acc.1 p.1 p.2
      (r.1, r.2 :: acc.2))
    (b, [])

/-- one step of the aggregation loop of `ConvertTrace` (the single consumer
of the results channel): merge into an existing entry, or resolve location
handles and insert a fresh entry. -/
def aggStep (st : PBuilder × List (String × SampleData)) (s : StackSample) :
    PBuilder × List (String × SampleData) :=
  let key := sampleKey s
  match alookup st.2 key with
  | some _ => (st.1, updateAdd st.2 key s.timeNs)
  | none =>
      let r := resolveLocsRev st.1 s.names s.cats
      (r.1, (key, ⟨r.2, 1, s.timeNs⟩) :: st.2)

/-- the conversion pipeline downstream of the per-thread sort: fixed sample
types and period metadata, per-thread stack reconstruction, aggregation,
final sample assembly.  The worker fan-in order and the Go map iteration
order are arbitrary in the source; this canonical model processes threads
in bucket order and emits aggregated samples in reverse insertion order.
Claims about content quantify over other orders explicitly. -/
def convertSorted (threads : List (List EventWithEnd)) : PProfile :=
  let b0 := setSampleTypes newBuilder [("samples", "count"), ("time", "nanoseconds")]
  let b1 := setPeriodType b0 "cpu" "nanoseconds"
  let b2 := { b1 with profile := { b1.profile with period := 1000000 } }
  let samples := (threads.map processThread).flatten
  let r := samples.foldl aggStep (b2, [])
  { r.1.profile with
      sample := r.1.profile.sample ++
        r.2.map fun kv => ⟨kv.2.locationIds, [kv.2.count, kv.2.timeNs]⟩ }

/-- source: `converter.ConvertTrace` on a trace with the given event list:
filter, group by normalized thread id, sort each thread by start time,
reconstruct, aggregate, assemble. -/
def convertTrace (t : List TraceEvent) : PProfile :=
  convertSorted ((threadGroups t).map sortTs)

/-! ## The protobuf encoder (source: `profile.go`, `Encode` and helpers) -/

/-- Go `uint64(z)` for an int64 value: two's-complement reinterpretation. -/
def u64 (z : Int) : Nat := (z % (2 ^ 64 : Int)).toNat

/-- fuelled body of the base-128 varint loop; the fuel only serves Lean's
termination checker and is always sufficient, because the encoded value
strictly decreases and starts no larger than the initial fuel. -/
def encodeVarintAux : Nat → Nat → List Nat
  | 0, v => [v]
  | fuel + 1, v => if v < 128 then [v] else (v % 128 + 128) :: encodeVarintAux fuel (v / 128)

/-- source: `encodeVarint`: little-endian base-128 with continuation bit
(`byte(v)|0x80` equals `v%128 + 128`). -/
def encodeVarint (v : Nat) : List Nat := encodeVarintAux v v

/-- source: `encodeTag`; for the wire types in use (< 8) the bit-or
`(fieldNum << 3) | wireType` is `fieldNum * 8 + wireType`. -/
def encodeTag (fieldNum wireType : Nat) : List Nat :=
  encodeVarint (fieldNum * 8 + wireType)

/-- a length-delimited field: tag, varint byte length, payload. -/
def lenDelim (fieldNum : Nat) (msg : List Nat) : List Nat :=
  encodeTag fieldNum 2 ++ encodeVarint msg.length ++ msg

/-- source: `encodeValueType`: both fields are written unconditionally. -/
def encodeValueType (vt : PValueType) : List Nat :=
  encodeTag 1 0 ++ encodeVarint (u64 vt.type) ++
  encodeTag 2 0 ++ encodeVarint (u64 vt.unit)

/-- source: `encodeSample`: packed varint location ids and values, each
written only when the list is nonempty. -/
def encodeSample (s : PSample) : List Nat :=
  (if s.locationId.length > 0 then
    lenDelim 1 ((s.locationId.map encodeVarint).flatten)
  else []) ++
  (if s.value.length > 0 then
    lenDelim 2 ((s.value.map fun v => encodeVarint (u64 v)).flatten)
  else [])

/-- source: `encodeLine`: the function id is written unconditionally, the
line number only when nonzero. -/
def encodeLine (l : PLine) : List Nat :=
  encodeTag 1 0 ++ encodeVarint l.functionId ++
  (if l.line ≠ 0 then encodeTag 2 0 ++ encodeVarint (u64 l.line) else [])

/-- source: `encodeLocation`: id written unconditionally, then the lines. -/
def encodeLocation (loc : PLocation) : List Nat :=
  encodeTag 1 0 ++ encodeVarint loc.id ++
  (loc.line.map fun li => lenDelim 4 (encodeLine li)).flatten

/-- source: `encodeFunction`: all four fields written unconditionally. -/
def encodeFunction (fn : PFunction) : List Nat :=
  encodeTag 1 0 ++ encodeVarint fn.id ++
  encodeTag 2 0 ++ encodeVarint (u64 fn.name) ++
  encodeTag 3 0 ++ encodeVarint (u64 fn.systemName) ++
  encodeTag 4 0 ++ encodeVarint (u64 fn.filename)

/-- UTF-8 bytes of a string (Go `[]byte(s)`). -/
def strBytes (s : String) : List Nat := s.toUTF8.toList.map fun b => b.toNat

/-- source: `Profile.Encode`.  The Go function also returns an `error` that
is always nil; the byte list models the successful result. -/
def pEncode (p : PProfile) : List Nat :=
  (p.sampleType.map fun vt => lenDelim 1 (encodeValueType vt)).flatten ++
  (p.sample.map fun s => lenDelim 2 (encodeSample s)).flatten ++
  (p.location.map fun loc => lenDelim 4 (encodeLocation loc)).flatten ++
  (p.function.map fun fn => lenDelim 5 (encodeFunction fn)).flatten ++
  (p.stringTable.map fun s => lenDelim 6 (strBytes s)).flatten ++
  (if p.timeNanos ≠ 0 then encodeTag 9 0 ++ encodeVarint (u64 p.timeNanos) else []) ++
  (if p.durationNanos ≠ 0 then encodeTag 10 0 ++ encodeVarint (u64 p.durationNanos) else []) ++
  (match p.periodType with
   | some vt => lenDelim 11 (encodeValueType vt)
   | none => []) ++
  (if p.period ≠ 0 then encodeTag 12 0 ++ encodeVarint (u64 p.period) else [])

/-! ## Arbitrary builder histories

An interleaving of concurrent builder calls, serialized by the builder's
mutex, is an arbitrary finite sequence of its atomic operations.  Claims
about "any point during and after a build" and about concurrent callers
quantify over these sequences. -/

/-- one atomic builder operation. -/
inductive BOp where
  | addStr (s : String)
  | getFn (name filename : String)
  | getLoc (name filename : String)
  | setTypes (ts : List (String × String))
  | setPeriod (tname unit : String)
deriving DecidableEq, Repr

/-- apply one operation, discarding the returned handle. -/
def applyOp (b : PBuilder) : BOp → PBuilder
  | .addStr s => (addString b s).1
  | .getFn n f => (getOrCreateFunction b n f).1
  | .getLoc n f => (getOrCreateLocation b n f).1
  | .setTypes ts => setSampleTypes b ts
  | .setPeriod n u => setPeriodType b n u

/-- run a sequence of builder operations. -/
def runOps (b : PBuilder) (ops : List BOp) : PBuilder := ops.foldl applyOp b

/-- position of the first occurrence of `s`, as the int64 index the builder
would hand out for it. -/
def idxOfInt : List String → String → Option Int
  | [], _ => none
  | x :: xs, s => if x = s then some 0 else (idxOfInt xs s).map (· + 1)

/-! ## The string-table invariant (claim C5 machinery) -/

/-- well-formedness of the builder's string state: the table has no
duplicates, slot 0 holds `""`, and the index map agrees with
first-occurrence lookup in the table. -/
def StrWF (b : PBuilder) : Prop :=
  b.profile.stringTable.Nodup ∧
  b.profile.stringTable.head? = some "" ∧
  ∀ s, alookup b.stringIndex s = idxOfInt b.profile.stringTable s

/-! ## Dense id assignment (claim C6) -/

/-- the id column of the function and location lists counts up from 1. -/
def IdsDense (b : PBuilder) : Prop :=
  b.profile.function.map (fun fn => fn.id) = List.range' 1 b.profile.function.length ∧
  b.profile.location.map (fun loc => loc.id) = List.range' 1 b.profile.location.length

/-! ## Exactly-once interning of functions and locations (claim C2) -/

/-- the function-index key interned by an operation, if any: both
`GetOrCreateFunction` and `GetOrCreateLocation` intern the implied function
under `name + "\x00" + filename`. -/
def fnKeyOf : BOp → Option String
  | .getFn n f => some (n ++ "\x00" ++ f)
  | .getLoc n f => some (n ++ "\x00" ++ f)
  | _ => none

/-- the location-index key interned by an operation, if any. -/
def locKeyOf : BOp → Option String
  | .getLoc n f => some (n ++ "\x00" ++ f)
  | _ => none

/-- record a key in a set-as-list, newest first (the key-column effect of a
single get-or-create call). -/
def addKey (acc : List String) (k : String) : List String :=
  if k ∈ acc then acc else k :: acc

/-- invariant tying the index maps to the entity lists: every location key
is also a function key, interned function ids are never 0 (they start
at 1), and each table grew in lockstep with its index. -/
structure C2Inv (b : PBuilder) : Prop where
  sub : ∀ k, k ∈ b.locationIndex.map Prod.fst → k ∈ b.functionIndex.map Prod.fst
  nz : ∀ p ∈ b.functionIndex, p.2 ≠ 0
  flen : b.profile.function.length = b.functionIndex.length
  llen : b.profile.location.length = b.locationIndex.length

/-- total nanoseconds over the aggregated entries. -/
def entrySum (m : List (String × SampleData)) : Int :=
  (m.map fun kv => kv.2.timeNs).sum

/-- the builder state of `ConvertTrace` just before aggregation begins:
sample types, period type and period are set (the `b2` of `convertSorted`). -/
def convertSetupB : PBuilder :=
  let b0 := setSampleTypes newBuilder [("samples", "count"), ("time", "nanoseconds")]
  let b1 := setPeriodType b0 "cpu" "nanoseconds"
  { b1 with profile := { b1.profile with period := 1000000 } }

/-! ## Leaf-first location ids and repeat-merge behavior (claim C7) -/

/-- ancestor-first resolution of the frames of a sample, written from the
specification: resolve each frame in stack order and keep the handles in
that same order.  The code's `resolveLocsRev` must produce exactly the
reverse of this list. -/
def resolveLocsFwd (b : PBuilder) (names cats : List String) : PBuilder × List Nat :=
  (names.zip cats).foldl
    (fun acc p =>
      let r := getOrCreateLocation acc.1 p.1 p.2
      (r.1, acc.2 ++ [r.2]))
    (b, [])

/-! ## The aggregation key and its (non-)injectivity (claim C4) -/

/-- the aggregation key obtained from a list of (name, category) frames:
each frame is rendered as `name + "\x00" + category` (the `stackKey`
entries of `ProcessThreadEvents`) and the entries are concatenated, each
followed by `";"` (the `key += s + ";"` loop of `ConvertTrace`). -/
def aggKeyOfFrames (frames : List (String × String)) : String :=
  (frames.map fun p => frameKey p.1 p.2).foldl (fun k fr => k ++ fr ++ ";") ""

/-- a string containing neither of the two separator characters used by the
aggregation key. -/
def noSep (s : String) : Prop := '\x00' ∉ s.data ∧ ';' ∉ s.data

instance (s : String) : Decidable (noSep s) :=
  inferInstanceAs (Decidable (_ ∧ _))

/-- thread-1 events of the C4 counterexample trace, with the end times
`ConvertTrace` caches for them. -/
def exX : EventWithEnd := ⟨⟨"X", "b", "a", .num 1, 0, 100⟩, 100⟩

def exY : EventWithEnd := ⟨⟨"X", "b", "a", .num 1, 10, 50⟩, 60⟩

/-- thread-2 event of the C4 counterexample trace: its single frame has a
category containing both separator characters. -/
def exZ : EventWithEnd := ⟨⟨"X", "b;a\x00b", "a", .num 2, 0, 10⟩, 10⟩

/-- pushing one event: prune, then append it as the new top of stack. -/
def pushRun (stack : List EventWithEnd) (e : EventWithEnd) : List EventWithEnd :=
  prune stack e ++ [e]

/-- the active stack after processing a list of events from an empty stack. -/
def stackAfter (l : List EventWithEnd) : List EventWithEnd :=
  l.foldl pushRun []

/-- two events in the order they are processed are properly nested when the
later one's interval is contained in the earlier one's, or the two are
disjoint (the earlier one ends before the later one starts). -/
def nestedOK (x y : EventWithEnd) : Prop := y.endv ≤ x.endv ∨ x.endv ≤ y.ev.ts

instance : DecidableRel nestedOK := fun x y =>
  inferInstanceAs (Decidable (y.endv ≤ x.endv ∨ x.endv ≤ y.ev.ts))

/-- parent event of the C3 witness thread. -/
def wA : EventWithEnd := ⟨⟨"X", "c", "A", .num 1, 0, 100⟩, 100⟩

/-- child event of the C3 witness thread, contained in `wA`. -/
def wB : EventWithEnd := ⟨⟨"X", "c", "B", .num 1, 10, 50⟩, 60⟩

/-- outermost event of the C3 counterexample thread. -/
def gA : EventWithEnd := ⟨⟨"X", "c", "A", .num 1, 0, 100⟩, 100⟩

/-- middle event of the C3 counterexample thread, contained in `gA`. -/
def gC : EventWithEnd := ⟨⟨"X", "c", "C", .num 1, 10, 80⟩, 90⟩

/-- innermost event of the C3 counterexample thread, contained in both. -/
def gB : EventWithEnd := ⟨⟨"X", "c", "B", .num 1, 20, 30⟩, 50⟩

/-- first tie event of the C3 counterexample: a short event starting at 0. -/
def gtB : EventWithEnd := ⟨⟨"X", "c", "B", .num 1, 0, 50⟩, 50⟩

/-- second tie event of the C3 counterexample: a long event starting at 0
whose interval contains that of `gtB`. -/
def gtA : EventWithEnd := ⟨⟨"X", "c", "A", .num 1, 0, 100⟩, 100⟩

/-- first C9 witness event (starts at 0). -/
def c9wA : EventWithEnd := ⟨⟨"X", "c", "A", .num 1, 0, 100⟩, 100⟩

/-- second C9 witness event (starts at 10, a distinct start time). -/
def c9wB : EventWithEnd := ⟨⟨"X", "c", "B", .num 1, 10, 50⟩, 60⟩

instance (l l' : List EventWithEnd) : Decidable (sortSpec l l') :=
  inferInstanceAs (Decidable (List.Perm l' l ∧ l'.Pairwise tsLe))

/-- the long tie event of the C9 counterexample (interval `[0, 100)`). -/
def tA : EventWithEnd := ⟨⟨"X", "c", "A", .num 1, 0, 100⟩, 100⟩

/-- the short tie event of the C9 counterexample (interval `[0, 50)`,
sharing its start timestamp with `tA`). -/
def tB : EventWithEnd := ⟨⟨"X", "c", "B", .num 1, 0, 50⟩, 50⟩

/-- the aggregated content produced by the conversion for the given sorted
thread family: one (key, count, nanoseconds) triple per aggregation entry,
as a multiset (the claim quantifies over content, not order). -/
def aggContent (threads : List (List EventWithEnd)) : Multiset (String × Int × Int) :=
  ↑(((threads.map processThread).flatten.foldl aggStep (convertSetupB, [])).2.map
      fun kv => (kv.1, kv.2.count, kv.2.timeNs))

/-! ## Association-list lookup facts -/

theorem alookup_isSome_iff {α : Type} (l : List (String × α)) (k : String) :
    (alookup l k).isSome ↔ k ∈ l.map Prod.fst := by
  induction l with
  | nil => simp [alookup]
  | cons p rest ih =>
      obtain ⟨k', v⟩ := p
      by_cases h : k' = k
      · subst h; simp [alookup]
      · simp only [alookup, if_neg h, List.map_cons, List.mem_cons, ih]
        exact ⟨fun m => Or.inr m, fun m => m.elim (fun e => absurd e.symm h) id⟩

theorem alookup_eq_none_iff {α : Type} (l : List (String × α)) (k : String) :
    alookup l k = none ↔ k ∉ l.map Prod.fst := by
  rw [← alookup_isSome_iff, Option.isSome_iff_exists]
  cases alookup l k <;> simp

theorem alookup_mem {α : Type} {l : List (String × α)} {k : String} {v : α}
    (h : alookup l k = some v) : (k, v) ∈ l := by
  induction l with
  | nil => cases h
  | cons p rest ih =>
      obtain ⟨k', v'⟩ := p
      by_cases hp : k' = k
      · subst hp
        simp only [alookup, if_pos rfl] at h
        injection h with h
        subst h
        exact List.mem_cons_self _ _
      · simp only [alookup, if_neg hp] at h
        exact List.mem_cons_of_mem _ (ih h)

/-! ## First-occurrence index facts -/

theorem idxOfInt_eq_none_iff (t : List String) (s : String) :
    idxOfInt t s = none ↔ s ∉ t := by
  induction t with
  | nil => simp [idxOfInt]
  | cons x t ih =>
      by_cases h : x = s
      · subst h; simp [idxOfInt]
      · have hxs : ¬ s = x := fun e => h e.symm
        simp [idxOfInt, h, ih, hxs]

theorem idxOfInt_isSome_iff (t : List String) (s : String) :
    (idxOfInt t s).isSome ↔ s ∈ t := by
  have := idxOfInt_eq_none_iff t s
  rw [← Option.not_isSome_iff_eq_none] at this
  exact not_iff_not.mp this

theorem idxOfInt_append_sing_mem {t : List String} {s : String} (x : String)
    (h : s ∈ t) : idxOfInt (t ++ [x]) s = idxOfInt t s := by
  induction t with
  | nil => cases h
  | cons y t ih =>
      by_cases hy : y = s
      · subst hy; simp [idxOfInt]
      · have : s ∈ t := by
          rcases List.mem_cons.mp h with e | m
          · exact absurd e.symm hy
          · exact m
        simp [idxOfInt, hy, ih this]

theorem idxOfInt_append_sing_self {t : List String} {s : String}
    (h : s ∉ t) : idxOfInt (t ++ [s]) s = some (t.length : Int) := by
  induction t with
  | nil => simp [idxOfInt]
  | cons y t ih =>
      have hy : ¬ y = s := fun e => h (e ▸ List.mem_cons_self y t)
      have hs : s ∉ t := fun m => h (List.mem_cons_of_mem y m)
      have hshape : idxOfInt ((y :: t) ++ [s]) s
          = (idxOfInt (t ++ [s]) s).map (· + 1) := by
        simp [idxOfInt, hy]
      rw [hshape, ih hs]
      simp

theorem idxOfInt_append_sing_ne {t : List String} {s x : String}
    (h : s ∉ t) (hx : s ≠ x) : idxOfInt (t ++ [x]) s = none := by
  induction t with
  | nil =>
      have hxs : ¬ x = s := fun e => hx e.symm
      simp [idxOfInt, hxs]
  | cons y t ih =>
      have hy : ¬ y = s := fun e => h (e ▸ List.mem_cons_self y t)
      have hs : s ∉ t := fun m => h (List.mem_cons_of_mem y m)
      simp [idxOfInt, hy, ih hs]

theorem strWF_newBuilder : StrWF newBuilder := by
  refine ⟨by simp [newBuilder], by simp [newBuilder], fun s => ?_⟩
  by_cases h : "" = s
  · subst h; simp [newBuilder, alookup, idxOfInt]
  · simp [newBuilder, alookup, idxOfInt, h]

/-- behavior of `AddString` on a well-formed builder: either the string was
interned before and nothing changes, or it is appended exactly once; the
invariant is preserved either way. -/
theorem addString_spec (b : PBuilder) (s : String) (h : StrWF b) :
    StrWF (addString b s).1 ∧
    (if s ∈ b.profile.stringTable
      then (addString b s).1 = b ∧
           idxOfInt b.profile.stringTable s = some (addString b s).2
      else (addString b s).1.profile.stringTable = b.profile.stringTable ++ [s] ∧
           (addString b s).2 = (b.profile.stringTable.length : Int)) := by
  obtain ⟨hnd, hhd, hidx⟩ := h
  cases hl : alookup b.stringIndex s with
  | some i =>
      have hsome : idxOfInt b.profile.stringTable s = some i := by rw [← hidx, hl]
      have hmem : s ∈ b.profile.stringTable := by
        rw [← idxOfInt_isSome_iff, hsome]; rfl
      have heq : addString b s = (b, i) := by simp [addString, hl]
      rw [heq]
      exact ⟨⟨hnd, hhd, hidx⟩, by rw [if_pos hmem]; exact ⟨rfl, hsome⟩⟩
  | none =>
      have hnone : idxOfInt b.profile.stringTable s = none := by rw [← hidx, hl]
      have hnmem : s ∉ b.profile.stringTable := (idxOfInt_eq_none_iff _ _).mp hnone
      have hne : b.profile.stringTable ≠ [] := by
        intro e; rw [e] at hhd; simp at hhd
      constructor
      · refine ⟨?_, ?_, ?_⟩
        · simp only [addString, hl]
          rw [List.nodup_append]
          refine ⟨hnd, List.nodup_singleton s, ?_⟩
          intro a ha hb
          simp only [List.mem_singleton] at hb
          subst hb
          exact hnmem ha
        · simp only [addString, hl]
          rw [List.head?_append_of_ne_nil _ hne]
          exact hhd
        · intro s'
          simp only [addString, hl, alookup]
          by_cases he : s = s'
          · subst he
            rw [if_pos rfl, idxOfInt_append_sing_self hnmem]
          · rw [if_neg he, hidx s']
            by_cases hm : s' ∈ b.profile.stringTable
            · rw [idxOfInt_append_sing_mem s hm]
            · rw [idxOfInt_append_sing_ne hm (fun e => he e.symm),
                (idxOfInt_eq_none_iff _ _).mpr hm]
      · rw [if_neg hnmem]
        simp [addString, hl]

theorem strWF_addString (b : PBuilder) (s : String) (h : StrWF b) :
    StrWF (addString b s).1 := (addString_spec b s h).1

theorem strWF_createFunction (b : PBuilder) (n f k : String) (h : StrWF b) :
    StrWF (createFunction b n f k).1 := by
  have h3 := strWF_addString _ f (strWF_addString _ n (strWF_addString b n h))
  exact h3

theorem strWF_setSampleTypes (ts : List (String × String)) (b : PBuilder)
    (h : StrWF b) : StrWF (setSampleTypes b ts) := by
  induction ts generalizing b with
  | nil => exact h
  | cons t ts ih =>
      have h2 := strWF_addString _ t.2 (strWF_addString b t.1 h)
      exact ih _ ⟨h2.1, h2.2.1, h2.2.2⟩

theorem strWF_applyOp (b : PBuilder) (op : BOp) (h : StrWF b) :
    StrWF (applyOp b op) := by
  cases op with
  | addStr s => exact strWF_addString b s h
  | getFn n f =>
      show StrWF (getOrCreateFunction b n f).1
      cases hl : alookup b.functionIndex (n ++ "\x00" ++ f) with
      | some id =>
          simp only [getOrCreateFunction, hl]
          exact h
      | none =>
          simp only [getOrCreateFunction, hl]
          exact strWF_createFunction b n f _ h
  | getLoc n f =>
      show StrWF (getOrCreateLocation b n f).1
      cases hl : alookup b.locationIndex (n ++ "\x00" ++ f) with
      | some id =>
          simp only [getOrCreateLocation, hl]
          exact h
      | none =>
          by_cases hf : (alookup b.functionIndex (n ++ "\x00" ++ f)).getD 0 = 0
      
          · simp only [getOrCreateLocation, hl, hf, if_true]
            have hc := strWF_createFunction b n f (n ++ "\x00" ++ f) h
            exact ⟨hc.1, hc.2.1, hc.2.2⟩
          · simp only [getOrCreateLocation, hl, if_neg hf]
            exact ⟨h.1, h.2.1, h.2.2⟩
  | setTypes ts => exact strWF_setSampleTypes ts b h
  | setPeriod n u =>
      have h2 := strWF_addString _ u (strWF_addString b n h)
      exact ⟨h2.1, h2.2.1, h2.2.2⟩

theorem strWF_runOps (ops : List BOp) (b : PBuilder) (h : StrWF b) :
    StrWF (runOps b ops) := by
  induction ops generalizing b with
  | nil => exact h
  | cons op ops ih => exact ih _ (strWF_applyOp b op h)

/-- C5.  At every point of a build (after any sequence of builder
operations starting from `NewBuilder`): the string table has no duplicate
entries, its slot 0 holds the empty string, and `AddString` returns the
index of the first (and only) occurrence of an already-interned string
without changing the builder, while a new string is appended exactly once
and receives the next index. -/
theorem c5_string_table_unique (ops : List BOp) (s : String) :
    (runOps newBuilder ops).profile.stringTable.Nodup ∧
    (runOps newBuilder ops).profile.stringTable.head? = some "" ∧
    (if s ∈ (runOps newBuilder ops).profile.stringTable
      then (addString (runOps newBuilder ops) s).1 = runOps newBuilder ops ∧
           idxOfInt (runOps newBuilder ops).profile.stringTable s
             = some (addString (runOps newBuilder ops) s).2
      else (addString (runOps newBuilder ops) s).1.profile.stringTable
             = (runOps newBuilder ops).profile.stringTable ++ [s] ∧
           (addString (runOps newBuilder ops) s).2
             = ((runOps newBuilder ops).profile.stringTable.length : Int)) := by
  have h := strWF_runOps ops newBuilder strWF_newBuilder
  exact ⟨h.1, h.2.1, (addString_spec _ s h).2⟩

/-! ## Shape of each builder operation (machinery for C2, C6, C10) -/

theorem addString_frame (b : PBuilder) (s : String) :
    (addString b s).1.profile.function = b.profile.function ∧
    (addString b s).1.profile.location = b.profile.location ∧
    (addString b s).1.functionIndex = b.functionIndex ∧
    (addString b s).1.locationIndex = b.locationIndex ∧
    ∃ t, (addString b s).1.profile.stringTable = b.profile.stringTable ++ t := by
  cases hl : alookup b.stringIndex s with
  | some i =>
      refine ⟨?_, ?_, ?_, ?_, [], ?_⟩ <;> simp [addString, hl]
  | none =>
      refine ⟨?_, ?_, ?_, ?_, [s], ?_⟩ <;> simp [addString, hl]

theorem createFunction_frame (b : PBuilder) (n f k : String) :
    (createFunction b n f k).1.profile.function
      = b.profile.function ++
        [⟨b.profile.function.length + 1,
          (addString b n).2,
          (addString (addString b n).1 n).2,
          (addString (addString (addString b n).1 n).1 f).2⟩] ∧
    (createFunction b n f k).1.profile.location = b.profile.location ∧
    (createFunction b n f k).1.functionIndex
      = (k, b.profile.function.length + 1) ::
          (addString (addString (addString b n).1 n).1 f).1.functionIndex ∧
    (createFunction b n f k).1.locationIndex = b.locationIndex ∧
    ∃ t, (createFunction b n f k).1.profile.stringTable
      = b.profile.stringTable ++ t := by
  obtain ⟨hf1, hl1, hfi1, hli1, t1, ht1⟩ := addString_frame b n
  obtain ⟨hf2, hl2, hfi2, hli2, t2, ht2⟩ := addString_frame (addString b n).1 n
  obtain ⟨hf3, hl3, hfi3, hli3, t3, ht3⟩ := addString_frame (addString (addString b n).1 n).1 f
  refine ⟨?_, ?_, ?_, ?_, t1 ++ t2 ++ t3, ?_⟩
  · show (addString (addString (addString b n).1 n).1 f).1.profile.function ++ _ = _
    rw [hf3, hf2, hf1]
  · show (addString (addString (addString b n).1 n).1 f).1.profile.location = _
    rw [hl3, hl2, hl1]
  · rfl
  · show (addString (addString (addString b n).1 n).1 f).1.locationIndex = _
    rw [hli3, hli2, hli1]
  · show (addString (addString (addString b n).1 n).1 f).1.profile.stringTable = _
    rw [ht3, ht2, ht1, List.append_assoc, List.append_assoc, List.append_assoc]

theorem getOrCreateFunction_hit {b : PBuilder} {n f : String} {id : Nat}
    (h : alookup b.functionIndex (n ++ "\x00" ++ f) = some id) :
    getOrCreateFunction b n f = (b, id) := by
  simp [getOrCreateFunction, h]

theorem getOrCreateFunction_miss {b : PBuilder} {n f : String}
    (h : alookup b.functionIndex (n ++ "\x00" ++ f) = none) :
    getOrCreateFunction b n f = createFunction b n f (n ++ "\x00" ++ f) := by
  simp [getOrCreateFunction, h]

theorem getOrCreateLocation_hit {b : PBuilder} {n f : String} {id : Nat}
    (h : alookup b.locationIndex (n ++ "\x00" ++ f) = some id) :
    getOrCreateLocation b n f = (b, id) := by
  simp [getOrCreateLocation, h]

theorem getOrCreateLocation_miss_frame {b : PBuilder} {n f : String}
    (h : alookup b.locationIndex (n ++ "\x00" ++ f) = none) :
    ∃ b' funcId,
      (((alookup b.functionIndex (n ++ "\x00" ++ f)).getD 0 = 0 ∧
          b' = (createFunction b n f (n ++ "\x00" ++ f)).1 ∧
          funcId = (createFunction b n f (n ++ "\x00" ++ f)).2) ∨
        ((alookup b.functionIndex (n ++ "\x00" ++ f)).getD 0 ≠ 0 ∧ b' = b ∧
          funcId = (alookup b.functionIndex (n ++ "\x00" ++ f)).getD 0)) ∧
      getOrCreateLocation b n f =
        ({ b' with
            profile := { b'.profile with
              location := b'.profile.location ++
                [⟨b'.profile.location.length + 1, [⟨funcId, 0⟩]⟩] }
            locationIndex :=
              (n ++ "\x00" ++ f, b'.profile.location.length + 1) :: b'.locationIndex },
          b'.profile.location.length + 1) := by
  by_cases hc : (alookup b.functionIndex (n ++ "\x00" ++ f)).getD 0 = 0
  · refine ⟨(createFunction b n f (n ++ "\x00" ++ f)).1,
      (createFunction b n f (n ++ "\x00" ++ f)).2,
      Or.inl ⟨hc, rfl, rfl⟩, ?_⟩
    simp [getOrCreateLocation, h, hc]
  · refine ⟨b, (alookup b.functionIndex (n ++ "\x00" ++ f)).getD 0,
      Or.inr ⟨hc, rfl, rfl⟩, ?_⟩
    simp [getOrCreateLocation, h, hc]

theorem setPeriodType_frame (b : PBuilder) (n u : String) :
    (setPeriodType b n u).profile.function = b.profile.function ∧
    (setPeriodType b n u).profile.location = b.profile.location ∧
    (setPeriodType b n u).functionIndex = b.functionIndex ∧
    (setPeriodType b n u).locationIndex = b.locationIndex ∧
    ∃ t, (setPeriodType b n u).profile.stringTable = b.profile.stringTable ++ t := by
  obtain ⟨hf1, hl1, hfi1, hli1, t1, ht1⟩ := addString_frame b n
  obtain ⟨hf2, hl2, hfi2, hli2, t2, ht2⟩ := addString_frame (addString b n).1 u
  exact ⟨by rw [show (setPeriodType b n u).profile.function
            = (addString (addString b n).1 u).1.profile.function from rfl, hf2, hf1],
    by rw [show (setPeriodType b n u).profile.location
            = (addString (addString b n).1 u).1.profile.location from rfl, hl2, hl1],
    by rw [show (setPeriodType b n u).functionIndex
            = (addString (addString b n).1 u).1.functionIndex from rfl, hfi2, hfi1],
    by rw [show (setPeriodType b n u).locationIndex
            = (addString (addString b n).1 u).1.locationIndex from rfl, hli2, hli1],
    t1 ++ t2,
    by rw [show (setPeriodType b n u).profile.stringTable
            = (addString (addString b n).1 u).1.profile.stringTable from rfl, ht2, ht1,
          List.append_assoc]⟩

theorem setSampleTypes_frame (ts : List (String × String)) (b : PBuilder) :
    (setSampleTypes b ts).profile.function = b.profile.function ∧
    (setSampleTypes b ts).profile.location = b.profile.location ∧
    (setSampleTypes b ts).functionIndex = b.functionIndex ∧
    (setSampleTypes b ts).locationIndex = b.locationIndex ∧
    ∃ t, (setSampleTypes b ts).profile.stringTable = b.profile.stringTable ++ t := by
  induction ts generalizing b with
  | nil => exact ⟨rfl, rfl, rfl, rfl, [], by simp [setSampleTypes]⟩
  | cons p ts ih =>
      obtain ⟨hf1, hl1, hfi1, hli1, t1, ht1⟩ := addString_frame b p.1
      obtain ⟨hf2, hl2, hfi2, hli2, t2, ht2⟩ := addString_frame (addString b p.1).1 p.2
      set b1 : PBuilder :=
        { (addString (addString b p.1).1 p.2).1 with
            profile := { (addString (addString b p.1).1 p.2).1.profile with
              sampleType := (addString (addString b p.1).1 p.2).1.profile.sampleType ++
                [⟨(addString b p.1).2, (addString (addString b p.1).1 p.2).2⟩] } } with hb1
      obtain ⟨gf, gl, gfi, gli, t3, gt⟩ := ih b1
      have hstep : setSampleTypes b (p :: ts) = setSampleTypes b1 ts := rfl
      refine ⟨?_, ?_, ?_, ?_, t1 ++ t2 ++ t3, ?_⟩
      · rw [hstep, gf, hb1]; show (addString (addString b p.1).1 p.2).1.profile.function = _
        rw [hf2, hf1]
      · rw [hstep, gl, hb1]; show (addString (addString b p.1).1 p.2).1.profile.location = _
        rw [hl2, hl1]
      · rw [hstep, gfi, hb1]; show (addString (addString b p.1).1 p.2).1.functionIndex = _
        rw [hfi2, hfi1]
      · rw [hstep, gli, hb1]; show (addString (addString b p.1).1 p.2).1.locationIndex = _
        rw [hli2, hli1]
      · rw [hstep, gt, hb1]
        show (addString (addString b p.1).1 p.2).1.profile.stringTable ++ t3 = _
        rw [ht2, ht1, List.append_assoc, List.append_assoc, List.append_assoc]

/-- every single builder operation only appends to the three entity lists. -/
theorem applyOp_frame (b : PBuilder) (op : BOp) :
    ∃ tf tl ts,
      (applyOp b op).profile.function = b.profile.function ++ tf ∧
      (applyOp b op).profile.location = b.profile.location ++ tl ∧
      (applyOp b op).profile.stringTable = b.profile.stringTable ++ ts := by
  cases op with
  | addStr s =>
      obtain ⟨hf, hl, _, _, t, ht⟩ := addString_frame b s
      exact ⟨[], [], t, by simp [applyOp, hf], by simp [applyOp, hl], ht⟩
  | getFn n f =>
      cases hl : alookup b.functionIndex (n ++ "\x00" ++ f) with
      | some id =>
          have h2 : applyOp b (.getFn n f) = b := by
            show (getOrCreateFunction b n f).1 = b
            rw [getOrCreateFunction_hit hl]
          rw [h2]
          exact ⟨[], [], [], by simp, by simp, by simp⟩
      | none =>
          have h2 : applyOp b (.getFn n f) = (createFunction b n f (n ++ "\x00" ++ f)).1 := by
            show (getOrCreateFunction b n f).1 = _
            rw [getOrCreateFunction_miss hl]
          rw [h2]
          obtain ⟨hf, hlo, _, _, t, ht⟩ := createFunction_frame b n f (n ++ "\x00" ++ f)
          exact ⟨_, [], t, hf, by rw [hlo, List.append_nil], ht⟩
  | getLoc n f =>
      cases hl : alookup b.locationIndex (n ++ "\x00" ++ f) with
      | some id =>
          have h2 : applyOp b (.getLoc n f) = b := by
            show (getOrCreateLocation b n f).1 = b
            rw [getOrCreateLocation_hit hl]
          rw [h2]
          exact ⟨[], [], [], by simp, by simp, by simp⟩
      | none =>
          obtain ⟨b', funcId, hcase, heq⟩ := getOrCreateLocation_miss_frame hl
          have h2 : applyOp b (.getLoc n f) =
              { b' with
                profile := { b'.profile with
                  location := b'.profile.location ++
                    [⟨b'.profile.location.length + 1, [⟨funcId, 0⟩]⟩] }
                locationIndex :=
                  (n ++ "\x00" ++ f, b'.profile.location.length + 1) :: b'.locationIndex } := by
            show (getOrCreateLocation b n f).1 = _
            rw [heq]
          rw [h2]
          rcases hcase with ⟨_, hb', _⟩ | ⟨_, hb', _⟩
          · subst hb'
            obtain ⟨hf, hlo, _, _, t, ht⟩ := createFunction_frame b n f (n ++ "\x00" ++ f)
            refine ⟨[⟨b.profile.function.length + 1, (addString b n).2,
                (addString (addString b n).1 n).2,
                (addString (addString (addString b n).1 n).1 f).2⟩],
              [⟨(createFunction b n f (n ++ "\x00" ++ f)).1.profile.location.length + 1,
                [⟨funcId, 0⟩]⟩], t, ?_, ?_, ?_⟩
            · exact hf
            · show (createFunction b n f (n ++ "\x00" ++ f)).1.profile.location ++ _
                = b.profile.location ++ _
              rw [hlo]
            · exact ht
          · subst hb'
            exact ⟨[], [⟨b'.profile.location.length + 1, [⟨funcId, 0⟩]⟩], [],
              by simp, rfl, by simp⟩
  | setTypes ts =>
      obtain ⟨hf, hl, _, _, t, ht⟩ := setSampleTypes_frame ts b
      exact ⟨[], [], t, by simp [applyOp, hf], by simp [applyOp, hl], ht⟩
  | setPeriod n u =>
      obtain ⟨hf, hl, _, _, t, ht⟩ := setPeriodType_frame b n u
      exact ⟨[], [], t, by simp [applyOp, hf], by simp [applyOp, hl], ht⟩

/-- C10.  Builder operations are append-only: after any sequence of
`AddString`, `GetOrCreateFunction` and `GetOrCreateLocation` calls (and the
sample-type/period-type setters), every previously existing string-table
entry, `Function`, and `Location` is still present, unchanged and at its
old position — the new state extends the old lists on the right. -/
theorem c10_builder_append_only (b : PBuilder) (ops : List BOp) :
    ∃ tf tl ts,
      (runOps b ops).profile.function = b.profile.function ++ tf ∧
      (runOps b ops).profile.location = b.profile.location ++ tl ∧
      (runOps b ops).profile.stringTable = b.profile.stringTable ++ ts := by
  induction ops generalizing b with
  | nil => exact ⟨[], [], [], by simp [runOps], by simp [runOps], by simp [runOps]⟩
  | cons op ops ih =>
      obtain ⟨tf1, tl1, ts1, hf1, hl1, ht1⟩ := applyOp_frame b op
      obtain ⟨tf2, tl2, ts2, hf2, hl2, ht2⟩ := ih (applyOp b op)
      have hrun : runOps b (op :: ops) = runOps (applyOp b op) ops := rfl
      exact ⟨tf1 ++ tf2, tl1 ++ tl2, ts1 ++ ts2,
        by rw [hrun, hf2, hf1, List.append_assoc],
        by rw [hrun, hl2, hl1, List.append_assoc],
        by rw [hrun, ht2, ht1, List.append_assoc]⟩

theorem range'_one_concat (n : Nat) :
    List.range' 1 (n + 1) = List.range' 1 n ++ [n + 1] := by
  rw [List.range'_concat]
  simp [Nat.add_comm]

theorem idsDense_snoc_fn {l : List PFunction} (h : l.map (fun fn => fn.id) = List.range' 1 l.length)
    {x : PFunction} (hx : x.id = l.length + 1) :
    (l ++ [x]).map (fun fn => fn.id) = List.range' 1 (l ++ [x]).length := by
  rw [List.map_append, h, List.length_append, List.map_singleton, hx]
  simp [range'_one_concat]

theorem idsDense_snoc_loc {l : List PLocation} (h : l.map (fun x => x.id) = List.range' 1 l.length)
    {x : PLocation} (hx : x.id = l.length + 1) :
    (l ++ [x]).map (fun x => x.id) = List.range' 1 (l ++ [x]).length := by
  rw [List.map_append, h, List.length_append, List.map_singleton, hx]
  simp [range'_one_concat]

theorem idsDense_applyOp (b : PBuilder) (op : BOp) (h : IdsDense b) :
    IdsDense (applyOp b op) := by
  obtain ⟨hfd, hld⟩ := h
  cases op with
  | addStr s =>
      obtain ⟨hf, hl, _, _, _, _⟩ := addString_frame b s
      have h2 : applyOp b (.addStr s) = (addString b s).1 := rfl
      rw [h2]
      exact ⟨by rw [hf]; exact hfd, by rw [hl]; exact hld⟩
  | getFn n f =>
      cases hl : alookup b.functionIndex (n ++ "\x00" ++ f) with
      | some id =>
          have h2 : applyOp b (.getFn n f) = b := by
            show (getOrCreateFunction b n f).1 = b
            rw [getOrCreateFunction_hit hl]
          rw [h2]; exact ⟨hfd, hld⟩
      | none =>
          have h2 : applyOp b (.getFn n f) = (createFunction b n f (n ++ "\x00" ++ f)).1 := by
            show (getOrCreateFunction b n f).1 = _
            rw [getOrCreateFunction_miss hl]
          rw [h2]
          obtain ⟨hf, hlo, _, _, _, _⟩ := createFunction_frame b n f (n ++ "\x00" ++ f)
          constructor
          · rw [hf]; exact idsDense_snoc_fn hfd rfl
          · rw [hlo]; exact hld
  | getLoc n f =>
      cases hl : alookup b.locationIndex (n ++ "\x00" ++ f) with
      | some id =>
          have h2 : applyOp b (.getLoc n f) = b := by
            show (getOrCreateLocation b n f).1 = b
            rw [getOrCreateLocation_hit hl]
          rw [h2]; exact ⟨hfd, hld⟩
      | none =>
          obtain ⟨b', funcId, hcase, heq⟩ := getOrCreateLocation_miss_frame hl
          have h2 : applyOp b (.getLoc n f) =
              { b' with
                profile := { b'.profile with
                  location := b'.profile.location ++
                    [⟨b'.profile.location.length + 1, [⟨funcId, 0⟩]⟩] }
                locationIndex :=
                  (n ++ "\x00" ++ f, b'.profile.location.length + 1) :: b'.locationIndex } := by
            show (getOrCreateLocation b n f).1 = _
            rw [heq]
          rw [h2]
          have hb' : b'.profile.function.map (fun fn => fn.id)
                = List.range' 1 b'.profile.function.length ∧
              b'.profile.location.map (fun x => x.id)
                = List.range' 1 b'.profile.location.length := by
            rcases hcase with ⟨_, hb', _⟩ | ⟨_, hb', _⟩
            · subst hb'
              obtain ⟨hf, hlo, _, _, _, _⟩ := createFunction_frame b n f (n ++ "\x00" ++ f)
              constructor
              · rw [hf]; exact idsDense_snoc_fn hfd rfl
              · rw [hlo]; exact hld
            · subst hb'; exact ⟨hfd, hld⟩
          constructor
          · show (b'.profile.function.map _) = _
            exact hb'.1
          · show ((b'.profile.location ++ _).map _) = _
            exact idsDense_snoc_loc hb'.2 rfl
  | setTypes ts =>
      obtain ⟨hf, hl, _, _, _, _⟩ := setSampleTypes_frame ts b
      have h2 : applyOp b (.setTypes ts) = setSampleTypes b ts := rfl
      rw [h2]
      exact ⟨by rw [hf]; exact hfd, by rw [hl]; exact hld⟩
  | setPeriod n u =>
      obtain ⟨hf, hl, _, _, _, _⟩ := setPeriodType_frame b n u
      have h2 : applyOp b (.setPeriod n u) = setPeriodType b n u := rfl
      rw [h2]
      exact ⟨by rw [hf]; exact hfd, by rw [hl]; exact hld⟩

/-- C6.  Within one build, function ids and location ids are assigned
densely starting at 1: after any operation sequence the id column of the
function list is exactly `[1, ..., n]` and likewise for locations, so the
k-th created entity has id k and no id is ever reused or reclaimed. -/
theorem c6_dense_ids (ops : List BOp) :
    (runOps newBuilder ops).profile.function.map (fun fn => fn.id)
      = List.range' 1 (runOps newBuilder ops).profile.function.length ∧
    (runOps newBuilder ops).profile.location.map (fun loc => loc.id)
      = List.range' 1 (runOps newBuilder ops).profile.location.length := by
  have hnew : IdsDense newBuilder := ⟨rfl, rfl⟩
  have : ∀ (l : List BOp) (b : PBuilder), IdsDense b → IdsDense (runOps b l) := by
    intro l
    induction l with
    | nil => exact fun b h => h
    | cons op opsl ih => exact fun b h => ih _ (idsDense_applyOp b op h)
  exact this ops newBuilder hnew

theorem c2Inv_newBuilder : C2Inv newBuilder := by
  refine ⟨?_, ?_, rfl, rfl⟩ <;> simp [newBuilder]

theorem createFunction_fnIdx (b : PBuilder) (n f k : String) :
    (createFunction b n f k).1.functionIndex
      = (k, b.profile.function.length + 1) :: b.functionIndex := by
  obtain ⟨_, _, hfi, _, _⟩ := createFunction_frame b n f k
  obtain ⟨_, _, h1, _, _⟩ := addString_frame b n
  obtain ⟨_, _, h2, _, _⟩ := addString_frame (addString b n).1 n
  obtain ⟨_, _, h3, _, _⟩ := addString_frame (addString (addString b n).1 n).1 f
  rw [hfi, h3, h2, h1]

theorem createFunction_locIdx (b : PBuilder) (n f k : String) :
    (createFunction b n f k).1.locationIndex = b.locationIndex := by
  obtain ⟨_, _, _, hli, _⟩ := createFunction_frame b n f k
  exact hli

/-- one step of the key-column evolution, with invariant preservation and
stability of existing bindings. -/
theorem c2_step (b : PBuilder) (op : BOp) (h : C2Inv b) :
    C2Inv (applyOp b op) ∧
    (applyOp b op).functionIndex.map Prod.fst
      = (match fnKeyOf op with
         | some k => addKey (b.functionIndex.map Prod.fst) k
         | none => b.functionIndex.map Prod.fst) ∧
    (applyOp b op).locationIndex.map Prod.fst
      = (match locKeyOf op with
         | some k => addKey (b.locationIndex.map Prod.fst) k
         | none => b.locationIndex.map Prod.fst) ∧
    (∀ k v, alookup b.functionIndex k = some v →
      alookup (applyOp b op).functionIndex k = some v) ∧
    (∀ k v, alookup b.locationIndex k = some v →
      alookup (applyOp b op).locationIndex k = some v) := by
  obtain ⟨hsub, hnz, hflen, hllen⟩ := h
  cases op with
  | addStr s =>
      obtain ⟨hf, hl, hfi, hli, _, _⟩ := addString_frame b s
      have h2 : applyOp b (.addStr s) = (addString b s).1 := rfl
      rw [h2]
      refine ⟨⟨?_, ?_, ?_, ?_⟩, ?_, ?_, ?_, ?_⟩
      · rw [hli, hfi]; exact hsub
      · rw [hfi]; exact hnz
      · rw [hf, hfi]; exact hflen
      · rw [hl, hli]; exact hllen
      · rw [hfi]
        rfl
      · rw [hli]
        rfl
      · intro k v hv; rw [hfi]; exact hv
      · intro k v hv; rw [hli]; exact hv
  | setTypes ts =>
      obtain ⟨hf, hl, hfi, hli, _, _⟩ := setSampleTypes_frame ts b
      have h2 : applyOp b (.setTypes ts) = setSampleTypes b ts := rfl
      rw [h2]
      refine ⟨⟨?_, ?_, ?_, ?_⟩, ?_, ?_, ?_, ?_⟩
      · rw [hli, hfi]; exact hsub
      · rw [hfi]; exact hnz
      · rw [hf, hfi]; exact hflen
      · rw [hl, hli]; exact hllen
      · rw [hfi]
        rfl
      · rw [hli]
        rfl
      · intro k v hv; rw [hfi]; exact hv
      · intro k v hv; rw [hli]; exact hv
  | setPeriod n u =>
      obtain ⟨hf, hl, hfi, hli, _, _⟩ := setPeriodType_frame b n u
      have h2 : applyOp b (.setPeriod n u) = setPeriodType b n u := rfl
      rw [h2]
      refine ⟨⟨?_, ?_, ?_, ?_⟩, ?_, ?_, ?_, ?_⟩
      · rw [hli, hfi]; exact hsub
      · rw [hfi]; exact hnz
      · rw [hf, hfi]; exact hflen
      · rw [hl, hli]; exact hllen
      · rw [hfi]
        rfl
      · rw [hli]
        rfl
      · intro k v hv; rw [hfi]; exact hv
      · intro k v hv; rw [hli]; exact hv
  | getFn n f =>
      cases hl : alookup b.functionIndex (n ++ "\x00" ++ f) with
      | some id =>
          have h2 : applyOp b (.getFn n f) = b := by
            show (getOrCreateFunction b n f).1 = b
            rw [getOrCreateFunction_hit hl]
          rw [h2]
          have hmem : (n ++ "\x00" ++ f) ∈ b.functionIndex.map Prod.fst := by
            rw [← alookup_isSome_iff, hl]; rfl
          refine ⟨⟨hsub, hnz, hflen, hllen⟩, ?_, rfl,
            fun _ _ hv => hv, fun _ _ hv => hv⟩
          show b.functionIndex.map Prod.fst = addKey _ _
          rw [addKey, if_pos hmem]
      | none =>
          have h2 : applyOp b (.getFn n f) = (createFunction b n f (n ++ "\x00" ++ f)).1 := by
            show (getOrCreateFunction b n f).1 = _
            rw [getOrCreateFunction_miss hl]
          have hnmem : (n ++ "\x00" ++ f) ∉ b.functionIndex.map Prod.fst := by
            rw [← alookup_eq_none_iff] at *
            exact hl
          obtain ⟨hfn, hlo, _, _, _, _⟩ := createFunction_frame b n f (n ++ "\x00" ++ f)
          rw [h2, createFunction_fnIdx, createFunction_locIdx]
          refine ⟨⟨?_, ?_, ?_, ?_⟩, ?_, rfl, ?_, fun _ _ hv => hv⟩
          · intro k hk
            rw [createFunction_locIdx] at hk
            rw [createFunction_fnIdx, List.map_cons]
            exact List.mem_cons_of_mem _ (hsub k hk)
          · rw [createFunction_fnIdx]
            intro p hp
            rcases List.mem_cons.mp hp with rfl | hp'
            · simp
            · exact hnz p hp'
          · rw [createFunction_fnIdx, hfn]
            simp [hflen]
          · rw [createFunction_locIdx, hlo]
            exact hllen
          · show List.map Prod.fst
                ((n ++ "\x00" ++ f, b.profile.function.length + 1) :: b.functionIndex)
              = addKey (List.map Prod.fst b.functionIndex) (n ++ "\x00" ++ f)
            rw [List.map_cons, addKey, if_neg hnmem]
          · intro k v hv
            have hk : ¬ ((n ++ "\x00" ++ f) = k) := by
              intro e; rw [e] at hl; rw [hl] at hv; cases hv
            show alookup ((n ++ "\x00" ++ f, b.profile.function.length + 1) :: b.functionIndex) k
              = some v
            simp only [alookup, if_neg hk]
            exact hv
  | getLoc n f =>
      cases hll : alookup b.locationIndex (n ++ "\x00" ++ f) with
      | some id =>
          have h2 : applyOp b (.getLoc n f) = b := by
            show (getOrCreateLocation b n f).1 = b
            rw [getOrCreateLocation_hit hll]
          rw [h2]
          have hmeml : (n ++ "\x00" ++ f) ∈ b.locationIndex.map Prod.fst := by
            rw [← alookup_isSome_iff, hll]; rfl
          have hmemf : (n ++ "\x00" ++ f) ∈ b.functionIndex.map Prod.fst :=
            hsub _ hmeml
          refine ⟨⟨hsub, hnz, hflen, hllen⟩, ?_, ?_,
            fun _ _ hv => hv, fun _ _ hv => hv⟩
          · show b.functionIndex.map Prod.fst = addKey _ _
            rw [addKey, if_pos hmemf]
          · show b.locationIndex.map Prod.fst = addKey _ _
            rw [addKey, if_pos hmeml]
      | none =>
          obtain ⟨b', funcId, hcase, heq⟩ := getOrCreateLocation_miss_frame hll
          have h2 : applyOp b (.getLoc n f) =
              { b' with
                profile := { b'.profile with
                  location := b'.profile.location ++
                    [⟨b'.profile.location.length + 1, [⟨funcId, 0⟩]⟩] }
                locationIndex :=
                  (n ++ "\x00" ++ f, b'.profile.location.length + 1) :: b'.locationIndex } := by
            show (getOrCreateLocation b n f).1 = _
            rw [heq]
          rw [h2]
          have hnmeml : (n ++ "\x00" ++ f) ∉ b.locationIndex.map Prod.fst := by
            rw [← alookup_eq_none_iff] at *
            exact hll
          -- facts about b' in the two function sub-cases
          rcases hcase with ⟨hz, hb', _⟩ | ⟨hz, hb', hfid⟩
          · -- the implied function was created
            have hfnone : alookup b.functionIndex (n ++ "\x00" ++ f) = none := by
              cases hfl : alookup b.functionIndex (n ++ "\x00" ++ f) with
              | none => rfl
              | some v =>
                  exfalso
                  have hvne : v ≠ 0 := hnz _ (alookup_mem hfl)
                  rw [hfl] at hz
                  exact hvne (by simpa using hz)
            have hnmemf : (n ++ "\x00" ++ f) ∉ b.functionIndex.map Prod.fst := by
              rw [← alookup_eq_none_iff] at *
              exact hfnone
            subst hb'
            obtain ⟨hfn, hlo, _, _, _, _⟩ := createFunction_frame b n f (n ++ "\x00" ++ f)
            refine ⟨⟨?_, ?_, ?_, ?_⟩, ?_, ?_, ?_, ?_⟩
            · intro k hk
              rw [createFunction_fnIdx]
              rw [createFunction_locIdx] at hk
              simp only [List.map_cons, List.mem_cons] at hk ⊢
              rcases hk with e | hk
              · exact Or.inl e
              · exact Or.inr (hsub k hk)
            · rw [createFunction_fnIdx]
              intro p hp
              rcases List.mem_cons.mp hp with rfl | hp'
              · simp
              · exact hnz p hp'
            · show (createFunction b n f (n ++ "\x00" ++ f)).1.profile.function.length
                = (createFunction b n f (n ++ "\x00" ++ f)).1.functionIndex.length
              rw [createFunction_fnIdx, hfn]
              simp [hflen]
            · rw [createFunction_locIdx, hlo]
              simp [hllen]
            · show ((createFunction b n f (n ++ "\x00" ++ f)).1.functionIndex).map Prod.fst
                = addKey (List.map Prod.fst b.functionIndex) (n ++ "\x00" ++ f)
              rw [createFunction_fnIdx, List.map_cons]
              simp [addKey, hnmemf]
            · show (((n ++ "\x00" ++ f,
                    (createFunction b n f (n ++ "\x00" ++ f)).1.profile.location.length + 1) ::
                    (createFunction b n f (n ++ "\x00" ++ f)).1.locationIndex).map Prod.fst)
                = addKey (List.map Prod.fst b.locationIndex) (n ++ "\x00" ++ f)
              rw [createFunction_locIdx, List.map_cons]
              simp [addKey, hnmeml]
            · intro k v hv
              have hk : ¬ ((n ++ "\x00" ++ f) = k) := by
                intro e; rw [e] at hfnone; rw [hfnone] at hv; cases hv
              show alookup (createFunction b n f (n ++ "\x00" ++ f)).1.functionIndex k = some v
              rw [createFunction_fnIdx]
              simp only [alookup, if_neg hk]
              exact hv
            · intro k v hv
              have hk : ¬ ((n ++ "\x00" ++ f) = k) := by
                intro e; rw [e] at hll; rw [hll] at hv; cases hv
              show alookup ((n ++ "\x00" ++ f,
                  (createFunction b n f (n ++ "\x00" ++ f)).1.profile.location.length + 1) ::
                  (createFunction b n f (n ++ "\x00" ++ f)).1.locationIndex) k = some v
              rw [createFunction_locIdx]
              simp only [alookup, if_neg hk]
              exact hv
          · -- the implied function already existed
            subst hb'
            have hmemf : (n ++ "\x00" ++ f) ∈ b'.functionIndex.map Prod.fst := by
              rw [← alookup_isSome_iff]
              cases hfl : alookup b'.functionIndex (n ++ "\x00" ++ f) with
              | none =>
                  rw [hfl] at hz
                  simp at hz
              | some v => rfl
            refine ⟨⟨?_, ?_, ?_, ?_⟩, ?_, ?_, ?_, ?_⟩
            · intro k hk
              simp only [List.map_cons, List.mem_cons] at hk
              rcases hk with e | hk
              · rw [e]; exact hmemf
              · exact hsub k hk
            · exact hnz
            · exact hflen
            · simp [hllen]
            · show b'.functionIndex.map Prod.fst
                = addKey (List.map Prod.fst b'.functionIndex) (n ++ "\x00" ++ f)
              simp [addKey, hmemf]
            · show (((n ++ "\x00" ++ f, b'.profile.location.length + 1) ::
                    b'.locationIndex).map Prod.fst)
                = addKey (List.map Prod.fst b'.locationIndex) (n ++ "\x00" ++ f)
              rw [List.map_cons]
              simp [addKey, hnmeml]
            · intro k v hv
              exact hv
            · intro k v hv
              have hk : ¬ ((n ++ "\x00" ++ f) = k) := by
                intro e; rw [e] at hll; rw [hll] at hv; cases hv
              show alookup ((n ++ "\x00" ++ f, b'.profile.location.length + 1) ::
                  b'.locationIndex) k = some v
              simp only [alookup, if_neg hk]
              exact hv

theorem c2_run (ops : List BOp) (b : PBuilder) (h : C2Inv b) :
    C2Inv (runOps b ops) ∧
    (runOps b ops).functionIndex.map Prod.fst
      = (ops.filterMap fnKeyOf).foldl addKey (b.functionIndex.map Prod.fst) ∧
    (runOps b ops).locationIndex.map Prod.fst
      = (ops.filterMap locKeyOf).foldl addKey (b.locationIndex.map Prod.fst) ∧
    (∀ k v, alookup b.functionIndex k = some v →
      alookup (runOps b ops).functionIndex k = some v) ∧
    (∀ k v, alookup b.locationIndex k = some v →
      alookup (runOps b ops).locationIndex k = some v) := by
  induction ops generalizing b with
  | nil => exact ⟨h, rfl, rfl, fun _ _ hv => hv, fun _ _ hv => hv⟩
  | cons op ops ih =>
      obtain ⟨hinv, hfmap, hlmap, hfst, hlst⟩ := c2_step b op h
      obtain ⟨hinv2, hfmap2, hlmap2, hfst2, hlst2⟩ := ih (applyOp b op) hinv
      have hrun : runOps b (op :: ops) = runOps (applyOp b op) ops := rfl
      refine ⟨by rw [hrun]; exact hinv2, ?_, ?_, ?_, ?_⟩
      · rw [hrun, hfmap2, hfmap]
        cases hop : fnKeyOf op with
        | some k => simp [List.filterMap_cons, hop]
        | none => simp [List.filterMap_cons, hop]
      · rw [hrun, hlmap2, hlmap]
        cases hop : locKeyOf op with
        | some k => simp [List.filterMap_cons, hop]
        | none => simp [List.filterMap_cons, hop]
      · intro k v hv
        rw [hrun]
        exact hfst2 k v (hfst k v hv)
      · intro k v hv
        rw [hrun]
        exact hlst2 k v (hlst k v hv)

theorem addKey_foldl_nodup (ks : List String) (acc : List String) (h : acc.Nodup) :
    (ks.foldl addKey acc).Nodup := by
  induction ks generalizing acc with
  | nil => exact h
  | cons k ks ih =>
      apply ih
      by_cases hk : k ∈ acc
      · rw [show addKey acc k = acc from by simp [addKey, hk]]
        exact h
      · rw [show addKey acc k = k :: acc from by simp [addKey, hk]]
        exact List.nodup_cons.mpr ⟨hk, h⟩

theorem addKey_foldl_toFinset (ks : List String) (acc : List String) :
    (ks.foldl addKey acc).toFinset = acc.toFinset ∪ ks.toFinset := by
  induction ks generalizing acc with
  | nil => simp
  | cons k ks ih =>
      rw [List.foldl_cons, ih, List.toFinset_cons]
      by_cases hk : k ∈ acc
      · rw [show addKey acc k = acc from by simp [addKey, hk]]
        ext x
        simp only [Finset.mem_union, List.mem_toFinset, Finset.mem_insert]
        constructor
        · rintro (h | h)
          · exact Or.inl h
          · exact Or.inr (Or.inr h)
        · rintro (h | rfl | h)
          · exact Or.inl h
          · exact Or.inl hk
          · exact Or.inr h
      · rw [show addKey acc k = k :: acc from by simp [addKey, hk]]
        rw [List.toFinset_cons, Finset.insert_union, Finset.union_insert]

theorem addKey_foldl_length (ks : List String) :
    (ks.foldl addKey []).length = ks.toFinset.card := by
  have hnd := addKey_foldl_nodup ks [] List.nodup_nil
  rw [← List.toFinset_card_of_nodup hnd, addKey_foldl_toFinset]
  simp

theorem getOrCreateFunction_post (b : PBuilder) (n f : String) :
    alookup (getOrCreateFunction b n f).1.functionIndex (n ++ "\x00" ++ f)
      = some (getOrCreateFunction b n f).2 := by
  cases hl : alookup b.functionIndex (n ++ "\x00" ++ f) with
  | some id =>
      rw [getOrCreateFunction_hit hl]
      exact hl
  | none =>
      rw [getOrCreateFunction_miss hl, createFunction_fnIdx]
      simp only [alookup, if_pos rfl]
      rfl

theorem getOrCreateLocation_post (b : PBuilder) (n f : String) :
    alookup (getOrCreateLocation b n f).1.locationIndex (n ++ "\x00" ++ f)
      = some (getOrCreateLocation b n f).2 := by
  cases hl : alookup b.locationIndex (n ++ "\x00" ++ f) with
  | some id =>
      rw [getOrCreateLocation_hit hl]
      exact hl
  | none =>
      obtain ⟨b', funcId, _, heq⟩ := getOrCreateLocation_miss_frame hl
      rw [heq]
      simp [alookup]

/-- C2.  Exactly-once creation: after any sequence of builder operations
(modelling any interleaving of concurrent callers), the number of functions
is exactly the number of distinct function keys requested, the number of
locations is exactly the number of distinct location keys requested, and
the id a `GetOrCreateLocation`/`GetOrCreateFunction` call returns for a key
is unchanged by any further operations — so repeated or concurrent calls
with the same `(name, category)` pair never create a duplicate. -/
theorem c2_exactly_once (ops : List BOp) :
    (runOps newBuilder ops).profile.function.length
      = (ops.filterMap fnKeyOf).toFinset.card ∧
    (runOps newBuilder ops).profile.location.length
      = (ops.filterMap locKeyOf).toFinset.card ∧
    (∀ ops2 n f,
      (getOrCreateLocation (runOps newBuilder (ops ++ BOp.getLoc n f :: ops2)) n f).2
        = (getOrCreateLocation (runOps newBuilder ops) n f).2) ∧
    (∀ ops2 n f,
      (getOrCreateFunction (runOps newBuilder (ops ++ BOp.getFn n f :: ops2)) n f).2
        = (getOrCreateFunction (runOps newBuilder ops) n f).2) := by
  obtain ⟨hinv, hfmap, hlmap, _, _⟩ := c2_run ops newBuilder c2Inv_newBuilder
  refine ⟨?_, ?_, ?_, ?_⟩
  · rw [hinv.flen, ← List.length_map (runOps newBuilder ops).functionIndex Prod.fst,
      hfmap]
    exact addKey_foldl_length _
  · rw [hinv.llen, ← List.length_map (runOps newBuilder ops).locationIndex Prod.fst,
      hlmap]
    exact addKey_foldl_length _
  · intro ops2 n f
    have hsplit : runOps newBuilder (ops ++ BOp.getLoc n f :: ops2)
        = runOps (applyOp (runOps newBuilder ops) (BOp.getLoc n f)) ops2 := by
      show List.foldl applyOp newBuilder (ops ++ BOp.getLoc n f :: ops2) = _
      rw [List.foldl_append]
      rfl
    have hpost := getOrCreateLocation_post (runOps newBuilder ops) n f
    obtain ⟨hinv2, _, _, _, _⟩ :=
      c2_step (runOps newBuilder ops) (BOp.getLoc n f) hinv
    obtain ⟨_, _, _, _, hlstable⟩ :=
      c2_run ops2 (applyOp (runOps newBuilder ops) (BOp.getLoc n f)) hinv2
    have hbind : alookup (runOps newBuilder
          (ops ++ BOp.getLoc n f :: ops2)).locationIndex (n ++ "\x00" ++ f)
        = some ((getOrCreateLocation (runOps newBuilder ops) n f).2) := by
      rw [hsplit]
      exact hlstable _ _ hpost
    rw [getOrCreateLocation_hit hbind]
  · intro ops2 n f
    have hsplit : runOps newBuilder (ops ++ BOp.getFn n f :: ops2)
        = runOps (applyOp (runOps newBuilder ops) (BOp.getFn n f)) ops2 := by
      show List.foldl applyOp newBuilder (ops ++ BOp.getFn n f :: ops2) = _
      rw [List.foldl_append]
      rfl
    have hpost := getOrCreateFunction_post (runOps newBuilder ops) n f
    obtain ⟨hinv2, _, _, _, _⟩ :=
      c2_step (runOps newBuilder ops) (BOp.getFn n f) hinv
    obtain ⟨_, _, _, hfstable, _⟩ :=
      c2_run ops2 (applyOp (runOps newBuilder ops) (BOp.getFn n f)) hinv2
    have hbind : alookup (runOps newBuilder
          (ops ++ BOp.getFn n f :: ops2)).functionIndex (n ++ "\x00" ++ f)
        = some ((getOrCreateFunction (runOps newBuilder ops) n f).2) := by
      rw [hsplit]
      exact hfstable _ _ hpost
    rw [getOrCreateFunction_hit hbind]

/-! ## Zero-value elision in the encoder (claim C8) -/

/-- C8 counterexample.  The claim says every zero-valued scalar field is
omitted from the encoding, including inside nested messages; but
`encodeValueType` writes both of its fields unconditionally, so the
all-zero `ValueType` encodes to four bytes (tag 1, value 0, tag 2, value 0)
instead of the empty message the claim would require. -/
theorem c8_counterexample :
    encodeValueType ⟨0, 0⟩ = [8, 0, 16, 0] ∧
    encodeFunction ⟨0, 0, 0, 0⟩ = [8, 0, 16, 0, 24, 0, 32, 0] ∧
    ([8, 0, 16, 0] : List Nat) ≠ [] := by
  refine ⟨?_, ?_, by decide⟩ <;> decide

/-- C8 as amended: zero-value elision holds exactly for the top-level
scalars `time_nanos`, `duration_nanos`, `period` (and a nil `period_type`),
and for the `line` field inside `Line`; when those are zero the encoding
consists of the repeated sections only, and a zero line number is dropped
from `encodeLine`. -/
theorem c8_top_level_elision (p : PProfile) (l : PLine)
    (h9 : p.timeNanos = 0) (h10 : p.durationNanos = 0) (h12 : p.period = 0)
    (hpt : p.periodType = none) (hl : l.line = 0) :
    pEncode p =
      (p.sampleType.map fun vt => lenDelim 1 (encodeValueType vt)).flatten ++
      (p.sample.map fun s => lenDelim 2 (encodeSample s)).flatten ++
      (p.location.map fun loc => lenDelim 4 (encodeLocation loc)).flatten ++
      (p.function.map fun fn => lenDelim 5 (encodeFunction fn)).flatten ++
      (p.stringTable.map fun s => lenDelim 6 (strBytes s)).flatten ∧
    encodeLine l = encodeTag 1 0 ++ encodeVarint l.functionId := by
  constructor
  · simp [pEncode, h9, h10, h12, hpt]
  · simp [encodeLine, hl]

theorem c8_top_level_elision_witness :
    pEncode ⟨[], [], [], [], [], 0, 0, none, 0⟩ = [] ∧
    encodeLine ⟨5, 0⟩ = [8, 5] := by
  obtain ⟨h1, h2⟩ :=
    c8_top_level_elision ⟨[], [], [], [], [], 0, 0, none, 0⟩ ⟨5, 0⟩ rfl rfl rfl rfl rfl
  constructor
  · rw [h1]
    rfl
  · rw [h2]
    decide

/-! ## Aggregation preserves the total duration (claim C1) -/

theorem addString_sample (b : PBuilder) (s : String) :
    (addString b s).1.profile.sample = b.profile.sample := by
  cases hl : alookup b.stringIndex s <;> simp [addString, hl]

theorem createFunction_sample (b : PBuilder) (n f k : String) :
    (createFunction b n f k).1.profile.sample = b.profile.sample := by
  show (addString (addString (addString b n).1 n).1 f).1.profile.sample = _
  rw [addString_sample, addString_sample, addString_sample]

theorem getOrCreateLocation_sample (b : PBuilder) (n f : String) :
    (getOrCreateLocation b n f).1.profile.sample = b.profile.sample := by
  cases hl : alookup b.locationIndex (n ++ "\x00" ++ f) with
  | some id => rw [getOrCreateLocation_hit hl]
  | none =>
      obtain ⟨b', funcId, hcase, heq⟩ := getOrCreateLocation_miss_frame hl
      have h2 : (getOrCreateLocation b n f).1.profile.sample = b'.profile.sample := by
        rw [heq]
      rw [h2]
      rcases hcase with ⟨_, hb', _⟩ | ⟨_, hb', _⟩
      · rw [hb', createFunction_sample]
      · rw [hb']

theorem resolveLocsRev_sample_aux (ps : List (String × String)) (b : PBuilder)
    (acc : List Nat) :
    (ps.foldl (fun acc p =>
        let r := getOrCreateLocation acc.1 p.1 p.2
        (r.1, r.2 :: acc.2)) (b, acc)).1.profile.sample = b.profile.sample := by
  induction ps generalizing b acc with
  | nil => rfl
  | cons p ps ih =>
      show (ps.foldl _ ((getOrCreateLocation b p.1 p.2).1,
        (getOrCreateLocation b p.1 p.2).2 :: acc)).1.profile.sample = _
      rw [ih]
      exact getOrCreateLocation_sample b p.1 p.2

theorem resolveLocsRev_sample (b : PBuilder) (names cats : List String) :
    (resolveLocsRev b names cats).1.profile.sample = b.profile.sample :=
  resolveLocsRev_sample_aux (names.zip cats) b []

theorem aggStep_sample (st : PBuilder × List (String × SampleData)) (s : StackSample) :
    (aggStep st s).1.profile.sample = st.1.profile.sample := by
  cases hl : alookup st.2 (sampleKey s) with
  | some d => simp [aggStep, hl]
  | none => simp [aggStep, hl, resolveLocsRev_sample]

theorem aggFold_sample (samples : List StackSample)
    (st : PBuilder × List (String × SampleData)) :
    (samples.foldl aggStep st).1.profile.sample = st.1.profile.sample := by
  induction samples generalizing st with
  | nil => rfl
  | cons s samples ih =>
      show ((samples.foldl aggStep (aggStep st s))).1.profile.sample = _
      rw [ih, aggStep_sample]

theorem updateAdd_sum (m : List (String × SampleData)) (key : String) (t : Int)
    (h : (alookup m key).isSome) :
    entrySum (updateAdd m key t) = entrySum m + t := by
  induction m with
  | nil => simp [alookup] at h
  | cons kv m ih =>
      obtain ⟨k, d⟩ := kv
      by_cases hk : k = key
      · simp only [updateAdd, if_pos hk, entrySum, List.map_cons, List.sum_cons]
        ring
      · simp only [alookup, if_neg hk] at h
        simp only [updateAdd, if_neg hk, entrySum, List.map_cons, List.sum_cons]
        show d.timeNs + entrySum (updateAdd m key t) = d.timeNs + entrySum m + t
        rw [ih h]
        ring

theorem aggStep_sum (st : PBuilder × List (String × SampleData)) (s : StackSample) :
    entrySum (aggStep st s).2 = entrySum st.2 + s.timeNs := by
  cases hl : alookup st.2 (sampleKey s) with
  | some d =>
      have h2 : (aggStep st s).2 = updateAdd st.2 (sampleKey s) s.timeNs := by
        simp [aggStep, hl]
      rw [h2, updateAdd_sum _ _ _ (by rw [hl]; rfl)]
  | none =>
      have h2 : (aggStep st s).2
          = (sampleKey s,
              ⟨(resolveLocsRev st.1 s.names s.cats).2, 1, s.timeNs⟩) :: st.2 := by
        simp [aggStep, hl]
      rw [h2]
      show s.timeNs + entrySum st.2 = entrySum st.2 + s.timeNs
      ring

theorem aggFold_sum (samples : List StackSample)
    (st : PBuilder × List (String × SampleData)) :
    entrySum (samples.foldl aggStep st).2
      = entrySum st.2 + (samples.map fun s => s.timeNs).sum := by
  induction samples generalizing st with
  | nil => simp
  | cons s ss ih =>
      show entrySum ((ss.foldl aggStep (aggStep st s))).2 = _
      rw [ih, aggStep_sum, List.map_cons, List.sum_cons]
      ring

theorem runThread_timeNs (stack evs) :
    (runThread stack evs).map (fun s => s.timeNs) = evs.map fun e => durNs e.ev := by
  induction evs generalizing stack with
  | nil => rfl
  | cons e evs ih =>
      simp only [runThread, List.map_cons, mkSample]
      rw [ih]

/-- splitting a sum over a list into per-fiber sums, one fiber per key. -/
theorem sum_fiberwise {α : Type} (keys : List Int) (f : α → Int) (key : α → Int) :
    ∀ l : List α, keys.Nodup → (∀ x ∈ l, key x ∈ keys) →
    (keys.map fun t => ((l.filter fun x => key x == t).map f).sum).sum
      = (l.map f).sum := by
  induction keys with
  | nil =>
      intro l _ hcov
      cases l with
      | nil => simp
      | cons x xs => exact absurd (hcov x (List.mem_cons_self x xs)) (by simp)
  | cons t ts ih =>
      intro l hnd hcov
      rw [List.map_cons, List.sum_cons]
      have hperm := List.filter_append_perm (fun x => key x == t) l
      have hsum : (l.map f).sum
          = ((l.filter fun x => key x == t).map f).sum +
            ((l.filter fun x => !(key x == t)).map f).sum := by
        have hpe := (hperm.map f).sum_eq
        rw [← hpe, List.map_append, List.sum_append]
      rw [hsum]
      congr 1
      have hts : ∀ t' ∈ ts, l.filter (fun x => key x == t')
          = (l.filter fun x => !(key x == t)).filter fun x => key x == t' := by
        intro t' ht'
        rw [List.filter_filter]
        apply List.filter_congr
        intro x _
        have htt : t' ≠ t := by
          rintro rfl
          exact (List.nodup_cons.mp hnd).1 ht'
        cases hkx : (key x == t') with
        | false => simp [hkx]
        | true =>
            have hkey : key x = t' := by simpa using hkx
            have : (key x == t) = false := by simp [hkey, htt]
            simp [hkx, this]
      have hmapc : (ts.map fun t' => ((l.filter fun x => key x == t').map f).sum)
          = (ts.map fun t' =>
              (((l.filter fun x => !(key x == t)).filter fun x => key x == t').map f).sum) := by
        apply List.map_congr_left
        intro t' ht'
        rw [hts t' ht']
      rw [hmapc]
      apply ih
      · exact (List.nodup_cons.mp hnd).2
      · intro x hx
        have hxl : x ∈ l := List.mem_of_mem_filter hx
        have hnt : ¬ ((key x == t) = true) := by
          have := List.of_mem_filter hx
          simpa using this
        rcases List.mem_cons.mp (hcov x hxl) with e | hmem
        · exact absurd (by simp [e]) hnt
        · exact hmem

theorem setPeriodType_sample (b : PBuilder) (n u : String) :
    (setPeriodType b n u).profile.sample = b.profile.sample := by
  show (addString (addString b n).1 u).1.profile.sample = _
  rw [addString_sample, addString_sample]

theorem setSampleTypes_sample (ts : List (String × String)) (b : PBuilder) :
    (setSampleTypes b ts).profile.sample = b.profile.sample := by
  induction ts generalizing b with
  | nil => rfl
  | cons p ts ih =>
      show (setSampleTypes _ ts).profile.sample = _
      rw [ih]
      show (addString (addString b p.1).1 p.2).1.profile.sample = _
      rw [addString_sample, addString_sample]

theorem convertSetupB_sample : convertSetupB.profile.sample = [] := by
  show (setPeriodType (setSampleTypes newBuilder
    [("samples", "count"), ("time", "nanoseconds")]) "cpu" "nanoseconds").profile.sample = []
  rw [setPeriodType_sample, setSampleTypes_sample]
  rfl

theorem convertSorted_sample_eq (threads : List (List EventWithEnd)) :
    (convertSorted threads).sample
      = ((threads.map processThread).flatten.foldl aggStep (convertSetupB, [])).2.map
          (fun kv => (⟨kv.2.locationIds, [kv.2.count, kv.2.timeNs]⟩ : PSample)) := by
  show ((threads.map processThread).flatten.foldl aggStep (convertSetupB, [])).1.profile.sample
      ++ _ = _
  rw [aggFold_sample, convertSetupB_sample, List.nil_append]
  rfl

theorem convertSorted_value_sum (threads : List (List EventWithEnd)) :
    ((convertSorted threads).sample.map fun s => s.value.getD 1 0).sum
      = ((threads.map processThread).flatten.map fun s => s.timeNs).sum := by
  rw [convertSorted_sample_eq, List.map_map]
  have hcomp : ((fun s : PSample => s.value.getD 1 0) ∘ fun kv : String × SampleData =>
      (⟨kv.2.locationIds, [kv.2.count, kv.2.timeNs]⟩ : PSample))
      = fun kv : String × SampleData => kv.2.timeNs := by
    funext kv
    rfl
  rw [hcomp]
  have hsum := aggFold_sum ((threads.map processThread).flatten) (convertSetupB, [])
  show entrySum ((threads.map processThread).flatten.foldl aggStep (convertSetupB, [])).2 = _
  rw [hsum]
  show entrySum [] + _ = _
  simp [entrySum]

theorem sum_map_flatten {α : Type} (f : α → Int) (L : List (List α)) :
    ((L.flatten).map f).sum = (L.map fun l => (l.map f).sum).sum := by
  induction L with
  | nil => rfl
  | cons l L ih =>
      rw [List.flatten_cons, List.map_append, List.sum_append, ih,
        List.map_cons, List.sum_cons]

/-- C1.  For every input trace, the durations column adds up exactly: the
sum over all samples of the produced profile of `Value[1]` equals the sum
of `int64(dur * 1000)` over all input events with phase `"X"` and strictly
positive duration. -/
theorem c1_duration_sum (l : List TraceEvent) :
    ((convertTrace l).sample.map fun s => s.value.getD 1 0).sum
      = ((l.filter fun e => e.ph == "X" && decide (0 < e.dur)).map durNs).sum := by
  rw [convertTrace, convertSorted_value_sum, sum_map_flatten]
  have hthread : ∀ g : List EventWithEnd,
      ((processThread (sortTs g)).map fun s => s.timeNs).sum
        = (g.map fun e => durNs e.ev).sum := by
    intro g
    rw [processThread, runThread_timeNs]
    exact ((List.perm_insertionSort tsLe g).map fun e => durNs e.ev).sum_eq
  calc ((((threadGroups l).map sortTs).map processThread).map
          fun samples => (samples.map fun s => s.timeNs).sum).sum
      = ((threadGroups l).map
          fun g => ((processThread (sortTs g)).map fun s => s.timeNs).sum).sum := by
        rw [List.map_map, List.map_map]
        rfl
    _ = ((threadGroups l).map fun g => (g.map fun e => durNs e.ev).sum).sum := by
        rw [List.map_congr_left fun g _ => hthread g]
    _ = ((tidsOf l).map fun t =>
          ((((qualifying l).filter fun e => getTid e.tid == t).map withEnd).map
            fun e => durNs e.ev).sum).sum := by
        rw [threadGroups, List.map_map]
        rfl
    _ = ((tidsOf l).map fun t =>
          (((qualifying l).filter fun e => getTid e.tid == t).map durNs).sum).sum := by
        apply congrArg
        apply List.map_congr_left
        intro t _
        rw [List.map_map]
        rfl
    _ = ((qualifying l).map durNs).sum := by
        rw [tidsOf]
        exact sum_fiberwise _ durNs (fun e => getTid e.tid) (qualifying l)
          (List.nodup_dedup _)
          (fun e he => List.mem_dedup.mpr (List.mem_map_of_mem _ he))

theorem resolveLocs_rev_fwd_aux (ps : List (String × String)) (b : PBuilder)
    (accF : List Nat) :
    (ps.foldl (fun acc p =>
        let r := getOrCreateLocation acc.1 p.1 p.2
        (r.1, r.2 :: acc.2)) (b, accF.reverse)).1
      = (ps.foldl (fun acc p =>
          let r := getOrCreateLocation acc.1 p.1 p.2
          (r.1, acc.2 ++ [r.2])) (b, accF)).1 ∧
    (ps.foldl (fun acc p =>
        let r := getOrCreateLocation acc.1 p.1 p.2
        (r.1, r.2 :: acc.2)) (b, accF.reverse)).2
      = (ps.foldl (fun acc p =>
          let r := getOrCreateLocation acc.1 p.1 p.2
          (r.1, acc.2 ++ [r.2])) (b, accF)).2.reverse := by
  induction ps generalizing b accF with
  | nil => exact ⟨rfl, rfl⟩
  | cons p ps ih =>
      have hstep : ((getOrCreateLocation b p.1 p.2).2 :: accF.reverse)
          = (accF ++ [(getOrCreateLocation b p.1 p.2).2]).reverse := by
        rw [List.reverse_append]
        rfl
      have := ih (getOrCreateLocation b p.1 p.2).1 (accF ++ [(getOrCreateLocation b p.1 p.2).2])
      constructor
      · show (ps.foldl _ ((getOrCreateLocation b p.1 p.2).1,
          (getOrCreateLocation b p.1 p.2).2 :: accF.reverse)).1 = _
        rw [hstep]
        exact this.1
      · show (ps.foldl _ ((getOrCreateLocation b p.1 p.2).1,
          (getOrCreateLocation b p.1 p.2).2 :: accF.reverse)).2 = _
        rw [hstep]
        exact this.2

/-- C7.  The per-sample location-id vector is stored leaf first: the code's
reversed-write loop produces exactly the reverse of the ancestor-first
resolution (with the same final builder); a first occurrence of a stack key
stores that reversed vector with count 1; and a repeat occurrence leaves
the builder untouched (no new handles) and only adds to count and
duration. -/
theorem c7_leaf_first_ids :
    (∀ (b : PBuilder) (names cats : List String),
      (resolveLocsRev b names cats).1 = (resolveLocsFwd b names cats).1 ∧
      (resolveLocsRev b names cats).2 = (resolveLocsFwd b names cats).2.reverse) ∧
    (∀ (b : PBuilder) (m : List (String × SampleData)) (s : StackSample),
      alookup m (sampleKey s) = none →
      aggStep (b, m) s = ((resolveLocsFwd b s.names s.cats).1,
        (sampleKey s,
          ⟨(resolveLocsFwd b s.names s.cats).2.reverse, 1, s.timeNs⟩) :: m)) ∧
    (∀ (b : PBuilder) (m : List (String × SampleData)) (s : StackSample)
        (d : SampleData),
      alookup m (sampleKey s) = some d →
      aggStep (b, m) s = (b, updateAdd m (sampleKey s) s.timeNs)) := by
  have hrev : ∀ (b : PBuilder) (names cats : List String),
      (resolveLocsRev b names cats).1 = (resolveLocsFwd b names cats).1 ∧
      (resolveLocsRev b names cats).2 = (resolveLocsFwd b names cats).2.reverse := by
    intro b names cats
    have := resolveLocs_rev_fwd_aux (names.zip cats) b []
    exact ⟨this.1, this.2⟩
  refine ⟨hrev, ?_, ?_⟩
  · intro b m s hnone
    have h2 : aggStep (b, m) s
        = ((resolveLocsRev b s.names s.cats).1,
            (sampleKey s,
              ⟨(resolveLocsRev b s.names s.cats).2, 1, s.timeNs⟩) :: m) := by
      simp [aggStep, hnone]
    rw [h2, (hrev b s.names s.cats).1, (hrev b s.names s.cats).2]
  · intro b m s d hsome
    simp [aggStep, hsome]

theorem c7_leaf_first_ids_witness :
    aggStep (newBuilder, []) ⟨["a\x00b"], ["a"], ["b"], 5⟩
      = ((resolveLocsFwd newBuilder ["a"] ["b"]).1,
          [("a\x00b;", ⟨(resolveLocsFwd newBuilder ["a"] ["b"]).2.reverse, 1, 5⟩)]) ∧
    aggStep (newBuilder, [("a\x00b;", ⟨[1], 1, 7⟩)]) ⟨["a\x00b"], ["a"], ["b"], 5⟩
      = (newBuilder, updateAdd [("a\x00b;", ⟨[1], 1, 7⟩)] "a\x00b;" 5) := by
  constructor
  · exact c7_leaf_first_ids.2.1 newBuilder [] ⟨["a\x00b"], ["a"], ["b"], 5⟩ (by decide)
  · exact c7_leaf_first_ids.2.2 newBuilder [("a\x00b;", ⟨[1], 1, 7⟩)]
      ⟨["a\x00b"], ["a"], ["b"], 5⟩ ⟨[1], 1, 7⟩ (by decide)

theorem key_foldl_data (entries : List String) (acc : String) :
    (entries.foldl (fun k fr => k ++ fr ++ ";") acc).data
      = acc.data ++ (entries.map fun e => e.data ++ [';']).flatten := by
  induction entries generalizing acc with
  | nil => simp
  | cons e entries ih =>
      rw [List.foldl_cons, ih, List.map_cons, List.flatten_cons]
      rw [String.data_append, String.data_append]
      simp [List.append_assoc]

theorem aggKeyOfFrames_data (frames : List (String × String)) :
    (aggKeyOfFrames frames).data
      = (frames.map fun p => (p.1.data ++ '\x00' :: p.2.data) ++ [';']).flatten := by
  rw [aggKeyOfFrames, key_foldl_data, List.map_map]
  show [] ++ _ = _
  rw [List.nil_append]
  apply congrArg
  apply List.map_congr_left
  intro p _
  show (frameKey p.1 p.2).data ++ [';'] = _
  rw [frameKey, String.data_append, String.data_append]
  simp

/-- splitting at the first occurrence of a separator absent from both
prefixes is unambiguous. -/
theorem sep_split (sep : Char) :
    ∀ (a₁ : List Char) {a₂ t₁ t₂ : List Char}, sep ∉ a₁ → sep ∉ a₂ →
    a₁ ++ sep :: t₁ = a₂ ++ sep :: t₂ → a₁ = a₂ ∧ t₁ = t₂ := by
  intro a₁
  induction a₁ with
  | nil =>
      intro a₂ t₁ t₂ _ h₂ heq
      cases a₂ with
      | nil =>
          refine ⟨rfl, ?_⟩
          injection heq
      | cons b a₂ =>
          exfalso
          rw [List.nil_append, List.cons_append] at heq
          injection heq with hb _
          exact h₂ (hb ▸ List.mem_cons_self b a₂)
  | cons c a₁ ih =>
      intro a₂ t₁ t₂ h₁ h₂ heq
      cases a₂ with
      | nil =>
          exfalso
          rw [List.nil_append, List.cons_append] at heq
          injection heq with hb _
          exact h₁ (hb ▸ List.mem_cons_self c a₁)
      | cons b a₂ =>
          rw [List.cons_append, List.cons_append] at heq
          injection heq with hcb htail
          have h₁' : sep ∉ a₁ := fun m => h₁ (List.mem_cons_of_mem c m)
          have h₂' : sep ∉ a₂ := fun m => h₂ (List.mem_cons_of_mem b m)
          obtain ⟨ha, ht⟩ := ih h₁' h₂' htail
          exact ⟨by rw [hcb, ha], ht⟩

theorem charFrames_inj :
    ∀ (fr1 fr2 : List (String × String)),
    (∀ p ∈ fr1, noSep p.1 ∧ noSep p.2) → (∀ p ∈ fr2, noSep p.1 ∧ noSep p.2) →
    (fr1.map fun p => (p.1.data ++ '\x00' :: p.2.data) ++ [';']).flatten
      = (fr2.map fun p => (p.1.data ++ '\x00' :: p.2.data) ++ [';']).flatten →
    fr1 = fr2 := by
  intro fr1
  induction fr1 with
  | nil =>
      intro fr2 _ _ heq
      cases fr2 with
      | nil => rfl
      | cons q fr2 =>
          exfalso
          rw [List.map_cons, List.flatten_cons] at heq
          have := congrArg List.length heq
          simp at this
          omega
  | cons p fr1 ih =>
      intro fr2 h1 h2 heq
      cases fr2 with
      | nil =>
          exfalso
          rw [List.map_cons, List.flatten_cons] at heq
          have := congrArg List.length heq
          simp at this
      | cons q fr2 =>
          rw [List.map_cons, List.flatten_cons, List.map_cons, List.flatten_cons] at heq
          have hshape : ∀ (r : String × String) (rest : List Char),
              ((r.1.data ++ '\x00' :: r.2.data) ++ [';']) ++ rest
                = (r.1.data ++ '\x00' :: r.2.data) ++ ';' :: rest := by
            intro r rest
            rw [List.append_assoc]
            rfl
          rw [hshape, hshape] at heq
          have hp := h1 p (List.mem_cons_self p fr1)
          have hq := h2 q (List.mem_cons_self q fr2)
          have hpn : ';' ∉ p.1.data ++ '\x00' :: p.2.data := by
            intro hm
            rcases List.mem_append.mp hm with hm | hm
            · exact hp.1.2 hm
            · rcases List.mem_cons.mp hm with e | hm
              · cases e
              · exact hp.2.2 hm
          have hqn : ';' ∉ q.1.data ++ '\x00' :: q.2.data := by
            intro hm
            rcases List.mem_append.mp hm with hm | hm
            · exact hq.1.2 hm
            · rcases List.mem_cons.mp hm with e | hm
              · cases e
              · exact hq.2.2 hm
          obtain ⟨hentry, hrest⟩ := sep_split ';' _ hpn hqn heq
          obtain ⟨hname, hcat⟩ := sep_split '\x00' _ hp.1.1 hq.1.1 hentry
          have hpq : p = q := Prod.ext (String.ext hname) (String.ext hcat)
          rw [hpq, ih fr2 (fun r hr => h1 r (List.mem_cons_of_mem p hr))
            (fun r hr => h2 r (List.mem_cons_of_mem q hr)) hrest]

/-- C4 as amended.  A sample's aggregation key is exactly the frame-key
rendering of its (name, category) chain; and for strings containing neither
of the separator characters `'\x00'` and `';'`, two keys are equal iff the
chains are equal, so samples merge exactly on identical ancestor chains
only under that restriction. -/
theorem c4_merge_iff_chains :
    (∀ (stack : List EventWithEnd) (e : EventWithEnd),
      sampleKey (mkSample stack e)
        = aggKeyOfFrames ((stack.map fun s => (s.ev.name, s.ev.cat)) ++
            [(e.ev.name, e.ev.cat)])) ∧
    (∀ fr1 fr2 : List (String × String),
      (∀ p ∈ fr1, noSep p.1 ∧ noSep p.2) →
      (∀ p ∈ fr2, noSep p.1 ∧ noSep p.2) →
      (aggKeyOfFrames fr1 = aggKeyOfFrames fr2 ↔ fr1 = fr2)) := by
  constructor
  · intro stack e
    rw [sampleKey, aggKeyOfFrames]
    show ((stack.map fun s => frameKey s.ev.name s.ev.cat) ++
        [frameKey e.ev.name e.ev.cat]).foldl _ "" = _
    rw [List.map_append, List.map_map]
    rfl
  · intro fr1 fr2 h1 h2
    constructor
    · intro heq
      apply charFrames_inj fr1 fr2 h1 h2
      rw [← aggKeyOfFrames_data, ← aggKeyOfFrames_data, heq]
    · intro heq
      rw [heq]

theorem c4_merge_iff_chains_witness :
    ((∀ p ∈ ([("a", "b")] : List (String × String)), noSep p.1 ∧ noSep p.2) ∧
      (∀ p ∈ ([("a", "c")] : List (String × String)), noSep p.1 ∧ noSep p.2)) ∧
    (aggKeyOfFrames [("a", "b")] = aggKeyOfFrames [("a", "c")]
      ↔ [("a", "b")] = [("a", "c")]) :=
  ⟨⟨by decide, by decide⟩, c4_merge_iff_chains.2 _ _ (by decide) (by decide)⟩

/-- C4 counterexample.  The nested event `exY` has stack signature
`[("a","b"), ("a","b")]`, while `exZ` (on another thread) has the different
signature `[("a","b;a\x00b")]`; yet their aggregation keys are both
`"a\x00b;a\x00b;"`, so the aggregation loop merges them into one sample
with count 2 — refuting the claim that samples merge only when their full
ancestor chains are identical, for arbitrary input strings. -/
theorem c4_counterexample :
    (exX.endv = endT exX.ev ∧ exY.endv = endT exY.ev ∧ exZ.endv = endT exZ.ev) ∧
    ((processThread [exX, exY]).map (fun s => (s.names, s.cats))
      = [(["a"], ["b"]), (["a", "a"], ["b", "b"])]) ∧
    ((processThread [exZ]).map (fun s => (s.names, s.cats))
      = [(["a"], ["b;a\x00b"])]) ∧
    ((processThread [exX, exY] ++ processThread [exZ]).map sampleKey
      = ["a\x00b;", "a\x00b;a\x00b;", "a\x00b;a\x00b;"]) ∧
    (((processThread [exX, exY] ++ processThread [exZ]).foldl aggStep
        (newBuilder, [])).2.map (fun kv => (kv.1, kv.2.count))
      = [("a\x00b;a\x00b;", 2), ("a\x00b;", 1)]) := by
  refine ⟨⟨?_, ?_, ?_⟩, ?_, ?_, ?_, ?_⟩
  · show (100 : ℚ) = 0 + 100
    norm_num
  · show (60 : ℚ) = 10 + 50
    norm_num
  · show (10 : ℚ) = 0 + 10
    norm_num
  · decide
  · decide
  · decide
  · decide

/-! ## Stack reconstruction and nesting (claim C3) -/

/-- when the incoming event starts no later than it ends (true of every
converted event, whose duration is positive), the two pruning steps
coincide with a single containment filter over the whole stack: the pop
loop only discards frames that the containment filter discards anyway. -/
theorem prune_eq_filter (stack : List EventWithEnd) (e : EventWithEnd)
    (h : e.ev.ts ≤ e.endv) :
    prune stack e = stack.filter fun s => decide (e.endv ≤ s.endv) := by
  have hnil : ((stack.reverse.takeWhile fun s => decide (s.endv < e.ev.ts)).reverse).filter
      (fun s => decide (e.endv ≤ s.endv)) = [] := by
    rw [List.filter_eq_nil_iff]
    intro a ha
    have hmem : a ∈ stack.reverse.takeWhile fun s => decide (s.endv < e.ev.ts) :=
      List.mem_reverse.mp ha
    have hlt : a.endv < e.ev.ts := by
      have := List.mem_takeWhile_imp hmem
      simpa using this
    simp only [decide_eq_true_eq]
    exact not_le.mpr (lt_of_lt_of_le hlt h)
  have hsplit : stack
      = (stack.reverse.dropWhile fun s => decide (s.endv < e.ev.ts)).reverse ++
        (stack.reverse.takeWhile fun s => decide (s.endv < e.ev.ts)).reverse := by
    rw [← List.reverse_append, List.takeWhile_append_dropWhile, List.reverse_reverse]
  rw [prune]
  conv_rhs => rw [hsplit]
  rw [List.filter_append, hnil, List.append_nil]

theorem runThread_append (s : List EventWithEnd) (l1 l2 : List EventWithEnd) :
    runThread s (l1 ++ l2) = runThread s l1 ++ runThread (l1.foldl pushRun s) l2 := by
  induction l1 generalizing s with
  | nil => rfl
  | cons e l1 ih =>
      show mkSample (prune s e) e :: runThread (prune s e ++ [e]) (l1 ++ l2) = _
      rw [ih (prune s e ++ [e])]
      rfl

theorem runThread_length (s : List EventWithEnd) (l : List EventWithEnd) :
    (runThread s l).length = l.length := by
  induction l generalizing s with
  | nil => rfl
  | cons e l ih =>
      show (runThread (prune s e ++ [e]) l).length + 1 = l.length + 1
      rw [ih]

/-- the sample emitted for the event at position `i` is built from the
pruned stack accumulated over the events before it. -/
theorem processThread_getElem (l : List EventWithEnd) (i : Nat) (hi : i < l.length) :
    (processThread l)[i]? = some (mkSample (prune (stackAfter (l.take i)) l[i]) l[i]) := by
  have hsplit : processThread l
      = runThread [] (l.take i) ++ runThread (stackAfter (l.take i)) (l.drop i) := by
    rw [processThread]
    conv_lhs => rw [← List.take_append_drop i l]
    rw [runThread_append]
    rfl
  rw [hsplit]
  have hlen : (runThread ([] : List EventWithEnd) (l.take i)).length = i := by
    rw [runThread_length, List.length_take]
    exact Nat.min_eq_left (Nat.le_of_lt hi)
  rw [List.getElem?_append_right (by rw [hlen]), hlen, Nat.sub_self]
  rw [List.drop_eq_getElem_cons hi]
  simp [runThread]

theorem prune_subset (s : List EventWithEnd) (e : EventWithEnd) :
    ∀ a ∈ prune s e, a ∈ s := by
  intro a ha
  have h1 := List.mem_of_mem_filter ha
  have h2 := List.mem_reverse.mp h1
  have h3 := (List.dropWhile_sublist _).subset h2
  exact List.mem_reverse.mp h3

theorem stackAfter_snoc (p : List EventWithEnd) (x : EventWithEnd) :
    stackAfter (p ++ [x]) = prune (stackAfter p) x ++ [x] := by
  rw [stackAfter, List.foldl_append]
  rfl

theorem stackAfter_subset (p : List EventWithEnd) : ∀ a ∈ stackAfter p, a ∈ p := by
  induction p using List.reverseRecOn with
  | nil => intro a ha; exact absurd ha (by simp [stackAfter])
  | append_singleton q x ih =>
      intro a ha
      rw [stackAfter_snoc] at ha
      rcases List.mem_append.mp ha with h | h
      · exact List.mem_append.mpr (Or.inl (ih a (prune_subset _ _ a h)))
      · exact List.mem_append.mpr (Or.inr h)

/-- the heart of the stack reconstruction: over a properly nested prefix
whose events all start no later than `e`, the active stack, filtered by
containment of `e`, is the same as the whole prefix so filtered — pruning
never discards a frame that still contains `e`. -/
theorem stackAfter_filter (p : List EventWithEnd) (e : EventWithEnd)
    (hne : p.Pairwise nestedOK)
    (hts : ∀ x ∈ p, x.ev.ts ≤ e.ev.ts)
    (hposp : ∀ x ∈ p, x.ev.ts ≤ x.endv)
    (hpos : e.ev.ts < e.endv) :
    (stackAfter p).filter (fun s => decide (e.endv ≤ s.endv))
      = p.filter (fun s => decide (e.endv ≤ s.endv)) := by
  induction p using List.reverseRecOn with
  | nil => rfl
  | append_singleton q x ih =>
      have hparts := List.pairwise_append.mp hne
      have hxq : ∀ a ∈ q, nestedOK a x := fun a ha =>
        hparts.2.2 a ha x (List.mem_singleton_self x)
      have hq : q.Pairwise nestedOK := hparts.1
      have hxmem : x ∈ q ++ [x] := List.mem_append.mpr (Or.inr (List.mem_singleton_self x))
      have hxts : x.ev.ts ≤ e.ev.ts := hts x hxmem
      have hxpos : x.ev.ts ≤ x.endv := hposp x hxmem
      have hts' : ∀ a ∈ q, a.ev.ts ≤ e.ev.ts := fun a ha =>
        hts a (List.mem_append.mpr (Or.inl ha))
      have hposp' : ∀ a ∈ q, a.ev.ts ≤ a.endv := fun a ha =>
        hposp a (List.mem_append.mpr (Or.inl ha))
      have key : ∀ a ∈ stackAfter q,
          (decide (e.endv ≤ a.endv) && decide (x.endv ≤ a.endv))
            = decide (e.endv ≤ a.endv) := by
        intro a ha
        by_cases hfe : e.endv ≤ a.endv
        · have haq : a ∈ q := stackAfter_subset q a ha
          rcases hxq a haq with h1 | h2
          · simp [hfe, h1]
          · exact absurd (lt_of_le_of_lt (le_trans hfe (le_trans h2 hxts)) hpos)
              (lt_irrefl _)
        · simp [hfe]
      calc ((stackAfter (q ++ [x])).filter fun s => decide (e.endv ≤ s.endv))
          = (((stackAfter q).filter fun s => decide (x.endv ≤ s.endv)) ++ [x]).filter
              (fun s => decide (e.endv ≤ s.endv)) := by
            rw [stackAfter_snoc, prune_eq_filter _ _ hxpos]
        _ = (((stackAfter q).filter fun s => decide (x.endv ≤ s.endv)).filter
              (fun s => decide (e.endv ≤ s.endv)))
            ++ [x].filter (fun s => decide (e.endv ≤ s.endv)) := by
            rw [List.filter_append]
        _ = ((stackAfter q).filter fun s => decide (e.endv ≤ s.endv))
            ++ [x].filter (fun s => decide (e.endv ≤ s.endv)) := by
            congr 1
            rw [List.filter_filter]
            exact List.filter_congr key
        _ = (q.filter fun s => decide (e.endv ≤ s.endv))
            ++ [x].filter (fun s => decide (e.endv ≤ s.endv)) := by
            rw [ih hq hts' hposp']
        _ = (q ++ [x]).filter fun s => decide (e.endv ≤ s.endv) :=
            (List.filter_append _ _).symm

/-- elements of a prefix are related to the cut-off element by any pairwise
relation of the whole list. -/
theorem mem_take_rel {α : Type} {R : α → α → Prop} {l : List α}
    (hR : l.Pairwise R) (i : Nat) (hi : i < l.length) :
    ∀ x ∈ l.take i, R x l[i] := by
  intro x hx
  rcases List.mem_iff_getElem.mp hx with ⟨k, hk, hxk⟩
  have hki : k < i := by
    rw [List.length_take] at hk
    omega
  have hkl : k < l.length := lt_trans hki hi
  have hgt : (l.take i)[k] = l[k] := List.getElem_take _
  rw [← hxk, hgt]
  exact (List.pairwise_iff_getElem.mp hR) k i hkl hi hki

/-- closed form of each emitted sample over a sorted, properly nested,
positive-duration thread: the sample for the event at position `i` is built
from exactly those earlier events whose interval still contains it. -/
theorem processThread_nested (l : List EventWithEnd) (i : Nat) (hi : i < l.length)
    (hne : l.Pairwise nestedOK) (hsort : l.Pairwise tsLe)
    (hpos : ∀ x ∈ l, x.ev.ts < x.endv) :
    (processThread l)[i]? =
      some (mkSample ((l.take i).filter fun s => decide (l[i].endv ≤ s.endv)) l[i]) := by
  rw [processThread_getElem l i hi]
  have hposi : l[i].ev.ts < l[i].endv := hpos _ (l.getElem_mem hi)
  have hfix : prune (stackAfter (l.take i)) l[i]
      = (l.take i).filter fun s => decide (l[i].endv ≤ s.endv) := by
    rw [prune_eq_filter _ _ (le_of_lt hposi)]
    exact stackAfter_filter (l.take i) l[i]
      (List.Pairwise.sublist (List.take_sublist i l) hne)
      (mem_take_rel hsort i hi)
      (fun x hx => le_of_lt (hpos x ((List.take_sublist i l).subset hx)))
      hposi
  rw [hfix]

/-- C3 as amended.  Over a thread sorted by start time whose events are
properly nested with positive durations, if the event at position `j` is
contained in the interval of the earlier event at position `i` and no event
strictly between them still contains it (so `i` holds its immediate
parent), then the sample emitted at `j` carries the sample emitted at `i`
extended by the `j`-event as the final (leaf) frame.  The original claim
fails without the immediate-parent condition (a grandparent also satisfies
containment) and without position `i` preceding `j` (events with equal
start times may be sorted child first). -/
theorem c3_nested_stack (l : List EventWithEnd) (i j : Nat)
    (hij : i < j) (hj : j < l.length)
    (hne : l.Pairwise nestedOK) (hsort : l.Pairwise tsLe)
    (hpos : ∀ x ∈ l, x.ev.ts < x.endv)
    (hcontain : l[j].endv ≤ l[i].endv)
    (himm : ∀ k (_h1 : i < k) (h2 : k < j), ¬ l[j].endv ≤ l[k].endv) :
    ∃ sA sB, (processThread l)[i]? = some sA ∧ (processThread l)[j]? = some sB ∧
      sB.names = sA.names ++ [l[j].ev.name] ∧ sB.cats = sA.cats ++ [l[j].ev.cat] := by
  have hi : i < l.length := lt_trans hij hj
  have hdecomp : l.take j = (l.take i ++ [l[i]]) ++ (l.drop (i+1)).take (j - (i+1)) := by
    have h2 : (i+1) + (j - (i+1)) = j := by omega
    have h3 : l.take (i+1) = l.take i ++ [l[i]] := by
      rw [List.take_succ, List.getElem?_eq_getElem hi]
      rfl
    calc l.take j = l.take ((i+1) + (j - (i+1))) := by rw [h2]
      _ = l.take (i+1) ++ (l.drop (i+1)).take (j - (i+1)) := List.take_add l (i+1) _
      _ = (l.take i ++ [l[i]]) ++ (l.drop (i+1)).take (j - (i+1)) := by rw [h3]
  have hBi : [l[i]].filter (fun s => decide (l[j].endv ≤ s.endv)) = [l[i]] := by
    rw [List.filter_singleton]
    simp [hcontain]
  have hmid : ((l.drop (i+1)).take (j - (i+1))).filter
      (fun s => decide (l[j].endv ≤ s.endv)) = [] := by
    rw [List.filter_eq_nil_iff]
    intro a ha
    rcases List.mem_iff_getElem.mp ha with ⟨m, hm, ham⟩
    have hmlt : m < j - (i+1) := by
      rw [List.length_take] at hm
      omega
    have hdroplen : m < (l.drop (i+1)).length := by
      rw [List.length_drop]
      rw [List.length_take, List.length_drop] at hm
      omega
    have h1 : ((l.drop (i+1)).take (j - (i+1)))[m] = (l.drop (i+1))[m] := List.getElem_take _
    have h2 : (l.drop (i+1))[m] = l[(i+1) + m] := List.getElem_drop _
    have hnot : ¬ l[j].endv ≤ l[(i+1) + m].endv := himm ((i+1) + m) (by omega) (by omega)
    simp only [decide_eq_true_eq]
    rw [← ham, h1, h2]
    exact hnot
  have hAB : (l.take i).filter (fun s => decide (l[j].endv ≤ s.endv))
      = (l.take i).filter (fun s => decide (l[i].endv ≤ s.endv)) := by
    apply List.filter_congr
    intro x hx
    have hxi : nestedOK x l[i] := mem_take_rel hne i hi x hx
    have hts_ij : l[i].ev.ts ≤ l[j].ev.ts := (List.pairwise_iff_getElem.mp hsort) i j hi hj hij
    have hposj : l[j].ev.ts < l[j].endv := hpos _ (l.getElem_mem hj)
    by_cases hA : l[i].endv ≤ x.endv
    · have hB : l[j].endv ≤ x.endv := le_trans hcontain hA
      simp [hA, hB]
    · have hB : ¬ l[j].endv ≤ x.endv := by
        intro hB
        rcases hxi with h1 | h2
        · exact hA h1
        · exact absurd (lt_of_le_of_lt (le_trans hB (le_trans h2 hts_ij)) hposj)
            (lt_irrefl _)
      simp [hA, hB]
  have hstack : (l.take j).filter (fun s => decide (l[j].endv ≤ s.endv))
      = (l.take i).filter (fun s => decide (l[i].endv ≤ s.endv)) ++ [l[i]] := by
    rw [hdecomp, List.filter_append, List.filter_append, hBi, hmid, hAB, List.append_nil]
  refine ⟨_, _, processThread_nested l i hi hne hsort hpos,
    processThread_nested l j hj hne hsort hpos, ?_, ?_⟩
  · simp only [mkSample]
    rw [hstack]
    simp
  · simp only [mkSample]
    rw [hstack]
    simp

theorem c3_nested_stack_witness :
    (0 < 1 ∧ 1 < ([wA, wB] : List EventWithEnd).length) ∧
    ([wA, wB].Pairwise nestedOK ∧ [wA, wB].Pairwise tsLe) ∧
    (∀ x ∈ [wA, wB], x.ev.ts < x.endv) ∧
    wB.endv ≤ wA.endv ∧
    (∃ sA sB, (processThread [wA, wB])[0]? = some sA ∧
      (processThread [wA, wB])[1]? = some sB ∧
      sB.names = sA.names ++ ["B"] ∧ sB.cats = sA.cats ++ ["c"]) :=
  ⟨⟨by decide, by decide⟩, ⟨by decide, by decide⟩, by decide, by decide,
    c3_nested_stack [wA, wB] 0 1 (by decide) (by decide) (by decide) (by decide)
      (by decide) (by decide)
      (by intro k h1 h2; exact absurd h1 (by omega))⟩

/-- C3 counterexample, two scenarios.  Grandparent: `gB` is contained in
the interval of `gA`, whose own sample stack is `["A"]`, yet the sample
emitted for `gB` has stack `["A", "C", "B"]`, not `["A", "B"]` — the claim
quantifies over every containing ancestor, not only the immediate parent.
Tie: `[gtB, gtA]` is a valid output of the start-time sort (a permutation
of the thread, sorted, since the two events share start time 0); `gtB` is
contained in the interval of `gtA`, whose sample stack is `["A"]`, yet the
sample emitted for `gtB` has stack `["B"]`, not `["A", "B"]`. -/
theorem c3_counterexample :
    (gA.endv = endT gA.ev ∧ gC.endv = endT gC.ev ∧ gB.endv = endT gB.ev ∧
      gtB.endv = endT gtB.ev ∧ gtA.endv = endT gtA.ev) ∧
    ((gA.ev.ts ≤ gB.ev.ts ∧ gB.endv ≤ gA.endv) ∧
      (processThread [gA, gC, gB]).map (fun s => s.names)
        = [["A"], ["A", "C"], ["A", "C", "B"]] ∧
      (["A", "C", "B"] : List String) ≠ ["A"] ++ ["B"]) ∧
    ((gtA.ev.ts ≤ gtB.ev.ts ∧ gtB.endv ≤ gtA.endv) ∧
      sortSpec [gtB, gtA] [gtB, gtA] ∧
      (processThread [gtB, gtA]).map (fun s => s.names) = [["B"], ["A"]] ∧
      (["B"] : List String) ≠ ["A"] ++ ["B"]) := by
  refine ⟨⟨?_, ?_, ?_, ?_, ?_⟩, ⟨?_, ?_, ?_⟩, ⟨?_, ?_, ?_, ?_⟩⟩
  · show (100 : ℚ) = 0 + 100
    norm_num
  · show (90 : ℚ) = 10 + 80
    norm_num
  · show (50 : ℚ) = 20 + 30
    norm_num
  · show (50 : ℚ) = 0 + 50
    norm_num
  · show (100 : ℚ) = 0 + 100
    norm_num
  · decide
  · decide
  · decide
  · decide
  · constructor
    · decide
    · decide
  · decide
  · decide

/-- when the start timestamps of a thread are pairwise distinct, the sorted
order is unique: any two sorted permutations of it coincide. -/
theorem sorted_perm_unique : ∀ (l1 l2 : List EventWithEnd), l1.Perm l2 →
    l1.Pairwise tsLe → l2.Pairwise tsLe → (l1.map fun e => e.ev.ts).Nodup → l1 = l2 := by
  intro l1
  induction l1 with
  | nil =>
      intro l2 hp _ _ _
      exact (hp.symm.eq_nil).symm
  | cons a l1 ih =>
      intro l2 hp h1 h2 hnd
      cases l2 with
      | nil => exact absurd hp.eq_nil (by simp)
      | cons b l2' =>
          have hab : a = b := by
            by_contra hne
            have ha2 : a ∈ l2' := by
              have hmem := hp.subset (List.mem_cons_self a l1)
              rcases List.mem_cons.mp hmem with h | h
              · exact absurd h hne
              · exact h
            have hb1 : b ∈ l1 := by
              have hmem := hp.symm.subset (List.mem_cons_self b l2')
              rcases List.mem_cons.mp hmem with h | h
              · exact absurd h.symm hne
              · exact h
            have hts1 : a.ev.ts ≤ b.ev.ts := (List.pairwise_cons.mp h1).1 b hb1
            have hts2 : b.ev.ts ≤ a.ev.ts := (List.pairwise_cons.mp h2).1 a ha2
            have hts : a.ev.ts = b.ev.ts := le_antisymm hts1 hts2
            have hmem : a.ev.ts ∈ l1.map fun e => e.ev.ts := by
              rw [hts]
              exact List.mem_map_of_mem _ hb1
            rw [List.map_cons] at hnd
            exact (List.nodup_cons.mp hnd).1 hmem
          subst hab
          have hp' : l1.Perm l2' := hp.cons_inv
          have hnd' : (l1.map fun e => e.ev.ts).Nodup := by
            rw [List.map_cons] at hnd
            exact (List.nodup_cons.mp hnd).2
          rw [ih l2' hp' (List.pairwise_cons.mp h1).2 (List.pairwise_cons.mp h2).2 hnd']

/-- pointwise: two families of valid sort outputs for the same family of
threads with duplicate-free start timestamps are identical. -/
theorem sorted_threads_unique : ∀ (threads threads1 threads2 : List (List EventWithEnd)),
    List.Forall₂ sortSpec threads threads1 → List.Forall₂ sortSpec threads threads2 →
    (∀ t ∈ threads, (t.map fun e => e.ev.ts).Nodup) → threads1 = threads2 := by
  intro threads
  induction threads with
  | nil =>
      intro t1 t2 h1 h2 _
      cases h1
      cases h2
      rfl
  | cons t ts ih =>
      intro t1 t2 h1 h2 hnd
      rcases h1 with - | ⟨hs1, htail1⟩
      rcases h2 with - | ⟨hs2, htail2⟩
      congr 1
      · have hperm := hs1.1.trans hs2.1.symm
        exact sorted_perm_unique _ _ hperm hs1.2 hs2.2
          (((hs1.1.map fun e => e.ev.ts).nodup_iff).mpr (hnd t (List.mem_cons_self t ts)))
      · exact ih _ _ htail1 htail2 (fun x hx => hnd x (List.mem_cons_of_mem t hx))

/-- C9 as amended.  When every thread's start timestamps are pairwise
distinct, the whole conversion downstream of the sort is deterministic:
any two outputs of `sort.Slice` (modelled by its postcondition `sortSpec`)
yield the same profile, hence the same multiset of aggregated samples.
With equal start timestamps on one thread the claim fails, because
`sort.Slice` is not stable and the aggregated content depends on the tie
order (see the counterexample). -/
theorem c9_deterministic_content (threads threads1 threads2 : List (List EventWithEnd))
    (h1 : List.Forall₂ sortSpec threads threads1)
    (h2 : List.Forall₂ sortSpec threads threads2)
    (hnd : ∀ t ∈ threads, (t.map fun e => e.ev.ts).Nodup) :
    convertSorted threads1 = convertSorted threads2 := by
  rw [sorted_threads_unique threads threads1 threads2 h1 h2 hnd]

theorem c9_deterministic_content_witness :
    List.Forall₂ sortSpec [[c9wB, c9wA]] [[c9wA, c9wB]] ∧
    (∀ t ∈ [[c9wB, c9wA]], (t.map fun e => e.ev.ts).Nodup) ∧
    convertSorted [[c9wA, c9wB]] = convertSorted [[c9wA, c9wB]] :=
  ⟨List.Forall₂.cons (by decide) List.Forall₂.nil, by decide,
    c9_deterministic_content [[c9wB, c9wA]] [[c9wA, c9wB]] [[c9wA, c9wB]]
      (List.Forall₂.cons (by decide) List.Forall₂.nil)
      (List.Forall₂.cons (by decide) List.Forall₂.nil) (by decide)⟩

/-- C9 counterexample.  The thread `[tB, tA]` has two events with equal
start timestamp 0; both `[tA, tB]` and `[tB, tA]` are valid outputs of the
start-time sort for it.  With `tA` first the two samples have keys
`"A\x00c;"` and `"A\x00c;B\x00c;"` (`tB` is emitted on top of `tA`); with
`tB` first the keys are `"B\x00c;"` and `"A\x00c;"` (`tA` evicts `tB`).
The two runs therefore disagree already on the multiset of aggregation
keys, so the multiset of (key, (count, duration)) content differs: the
conversion is not deterministic under ties, and no stable sort is used to
resolve them (`sort.Slice` gives no such guarantee). -/
theorem c9_counterexample :
    (tA.endv = endT tA.ev ∧ tB.endv = endT tB.ev) ∧
    sortSpec [tB, tA] [tA, tB] ∧ sortSpec [tB, tA] [tB, tA] ∧
    Multiset.map (fun kv => kv.1) (aggContent [[tA, tB]])
      ≠ Multiset.map (fun kv => kv.1) (aggContent [[tB, tA]]) ∧
    aggContent [[tA, tB]] ≠ aggContent [[tB, tA]] := by
  refine ⟨⟨?_, ?_⟩, ?_, ?_, ?_, ?_⟩
  · show (100 : ℚ) = 0 + 100
    norm_num
  · show (50 : ℚ) = 0 + 50
    norm_num
  · decide
  · decide
  · decide
  · intro h
    exact absurd (congrArg (Multiset.map fun kv => kv.1) h) (by decide)
